import Mathlib

/-!
Verification of the plist-parsing / preference-store / e-mail-header core of
the repository (`src/shared/plist/parser.ts`, `src/shared/plist/reader.ts`,
`src/tools/custom/column-layout.ts`, `src/tools/custom/list-smart-groups.ts`,
`src/tools/custom/parse-eml-headers.ts`).

Strings are embedded as `List Char`; JavaScript `s.indexOf(pat, from)` is
embedded as `findFrom pat s from : Option Nat` (`none` for `-1`).
-/

namespace Devon

/-- The literal `"<dict>"` open tag scanned for by `extractTopLevelDicts`. -/
def openTag : List Char := "<dict>".toList

/-- The literal `"</dict>"` close tag scanned for by `extractTopLevelDicts`. -/
def closeTag : List Char := "</dict>".toList

/-- `occAt pat s i`: the pattern `pat` occurs in `s` starting at index `i`. -/
def occAt (pat s : List Char) (i : Nat) : Prop := pat <+: s.drop i

instance occAt.dec (pat s : List Char) (i : Nat) : Decidable (occAt pat s i) :=
  decidable_of_iff (pat.isPrefixOf (s.drop i) = true) List.isPrefixOf_iff_prefix

/-- Fuel-based body of `findFrom`; the fuel strictly exceeds the number of
remaining candidate positions, so it never runs out on the wrapper's call. -/
def findFromAux : Nat → List Char → List Char → Nat → Option Nat
  | 0, _, _, _ => none
  | fuel + 1, pat, s, start =>
    if start + pat.length ≤ s.length then
      if pat.isPrefixOf (s.drop start) then some start
      else findFromAux fuel pat s (start + 1)
    else none

/-- Embedding of JavaScript `s.indexOf(pat, start)`: the least `i ≥ start` at
which `pat` occurs in `s`, or `none` when there is no such occurrence. -/
def findFrom (pat s : List Char) (start : Nat) : Option Nat :=
  findFromAux (s.length + 1 - start) pat s start

theorem findFromAux_sufficient {pat s : List Char} :
    ∀ {fuel₁ fuel₂ start : Nat}, s.length + 1 - start ≤ fuel₁ →
      s.length + 1 - start ≤ fuel₂ →
      findFromAux fuel₁ pat s start = findFromAux fuel₂ pat s start := by
  intro fuel₁
  induction fuel₁ with
  | zero =>
    intro fuel₂ start h₁ h₂
    cases fuel₂ with
    | zero => rfl
    | succ g =>
      rw [findFromAux, findFromAux, if_neg (by omega)]
  | succ f ih =>
    intro fuel₂ start h₁ h₂
    cases fuel₂ with
    | zero =>
      rw [findFromAux, findFromAux, if_neg (by omega)]
    | succ g =>
      rw [findFromAux, findFromAux]
      by_cases hle : start + pat.length ≤ s.length
      · rw [if_pos hle, if_pos hle]
        by_cases hpre : pat.isPrefixOf (s.drop start) = true
        · simp only [hpre, if_true]
        · simp only [hpre, if_false]
          exact ih (by omega) (by omega)
      · rw [if_neg hle, if_neg hle]

/-- The defining loop equation of JavaScript `indexOf` for `findFrom`. -/
theorem findFrom_unfold (pat s : List Char) (start : Nat) :
    findFrom pat s start =
      if start + pat.length ≤ s.length then
        if pat.isPrefixOf (s.drop start) then some start
        else findFrom pat s (start + 1)
      else none := by
  rw [findFrom, findFrom]
  cases hf : s.length + 1 - start with
  | zero =>
    rw [show findFromAux 0 pat s start = none from rfl, if_neg (by omega)]
  | succ f =>
    rw [findFromAux]
    by_cases hle : start + pat.length ≤ s.length
    · rw [if_pos hle, if_pos hle]
      by_cases hpre : pat.isPrefixOf (s.drop start) = true
      · simp only [hpre, if_true]
      · simp only [hpre, if_false]
        exact findFromAux_sufficient (by omega) (by omega)
    · rw [if_neg hle, if_neg hle]

theorem occAt_length {pat s : List Char} {i : Nat} (hpat : pat ≠ [])
    (h : occAt pat s i) : i + pat.length ≤ s.length := by
  have hle : pat.length ≤ (s.drop i).length := h.length_le
  rw [List.length_drop] at hle
  have hpos : 0 < pat.length := List.length_pos.mpr hpat
  omega

theorem findFrom_some {pat s : List Char} {start i : Nat}
    (h : findFrom pat s start = some i) :
    start ≤ i ∧ occAt pat s i ∧ i + pat.length ≤ s.length ∧
      ∀ j, start ≤ j → j < i → ¬ occAt pat s j := by
  rw [findFrom_unfold] at h
  by_cases hle : start + pat.length ≤ s.length
  · rw [if_pos hle] at h
    by_cases hpre : pat.isPrefixOf (s.drop start) = true
    · simp only [hpre, if_true] at h
      obtain rfl : start = i := Option.some.inj h
      refine ⟨Nat.le_refl _, List.isPrefixOf_iff_prefix.mp hpre, hle, ?_⟩
      intro j hj1 hj2
      omega
    · simp only [hpre, if_false] at h
      obtain ⟨h1, h2, h3, h4⟩ := findFrom_some h
      refine ⟨by omega, h2, h3, ?_⟩
      intro j hjs hji
      rcases Nat.eq_or_lt_of_le hjs with heq | hlt
      · subst heq
        exact fun hocc => hpre (List.isPrefixOf_iff_prefix.mpr hocc)
      · exact h4 j hlt hji
  · rw [if_neg hle] at h
    exact absurd h (by simp)
termination_by s.length + 1 - start
decreasing_by omega

theorem findFrom_none {pat s : List Char} {start : Nat} (hpat : pat ≠ [])
    (h : findFrom pat s start = none) :
    ∀ j, start ≤ j → ¬ occAt pat s j := by
  rw [findFrom_unfold] at h
  by_cases hle : start + pat.length ≤ s.length
  · rw [if_pos hle] at h
    by_cases hpre : pat.isPrefixOf (s.drop start) = true
    · simp only [hpre, if_true] at h
      exact absurd h (by simp)
    · simp only [hpre, if_false] at h
      intro j hj hocc
      rcases Nat.eq_or_lt_of_le hj with heq | hlt
      · subst heq
        exact hpre (List.isPrefixOf_iff_prefix.mpr hocc)
      · exact findFrom_none hpat h j hlt hocc
  · rw [if_neg hle] at h
    intro j hj hocc
    have := occAt_length hpat hocc
    omega
termination_by s.length + 1 - start
decreasing_by omega

theorem findFrom_eq_some_of {pat s : List Char} {start i : Nat} (hpat : pat ≠ [])
    (hocc : occAt pat s i) (hsi : start ≤ i)
    (hmin : ∀ j, start ≤ j → j < i → ¬ occAt pat s j) :
    findFrom pat s start = some i := by
  have hlen : i + pat.length ≤ s.length := occAt_length hpat hocc
  rw [findFrom_unfold, if_pos (by omega)]
  rcases Nat.eq_or_lt_of_le hsi with heq | hlt
  · subst heq
    simp [List.isPrefixOf_iff_prefix.mpr hocc]
  · have hns : ¬ occAt pat s start := hmin start (Nat.le_refl _) hlt
    have hnpre : ¬ pat.isPrefixOf (s.drop start) = true := fun hc =>
      hns (List.isPrefixOf_iff_prefix.mp hc)
    simp only [hnpre, if_false]
    exact findFrom_eq_some_of hpat hocc (by omega)
      (fun j hj hji => hmin j (by omega) hji)
termination_by s.length + 1 - start
decreasing_by omega

theorem findFrom_eq_none_of {pat s : List Char} {start : Nat}
    (h : ∀ j, start ≤ j → ¬ occAt pat s j) :
    findFrom pat s start = none := by
  cases hf : findFrom pat s start with
  | none => rfl
  | some i =>
    obtain ⟨h1, h2, _, _⟩ := findFrom_some hf
    exact absurd h2 (h i h1)

theorem occAt_getElem {pat s : List Char} {i : Nat} (h : occAt pat s i)
    {k : Nat} (hk : k < pat.length) : s[i + k]? = pat[k]? := by
  obtain ⟨t, ht⟩ := h
  rw [← List.getElem?_drop, ← ht, List.getElem?_append_left hk]

/-- `T` is one of the two dict tags. -/
def isTag (T : List Char) : Prop := T = openTag ∨ T = closeTag

theorem tag_ne_nil {T : List Char} (h : isTag T) : T ≠ [] := by
  rcases h with h | h <;> subst h <;> decide

theorem tag_head {T : List Char} (h : isTag T) : T[0]? = some '<' := by
  rcases h with h | h <;> subst h <;> decide

theorem tag_inside_ne_head {T : List Char} (h : isTag T) {k : Nat}
    (hk1 : 1 ≤ k) (hk : k < T.length) : T[k]? ≠ some '<' := by
  rcases h with h | h <;> subst h
  · have hk6 : k < 6 := by simpa using hk
    interval_cases k <;> decide
  · have hk7 : k < 7 := by simpa using hk
    interval_cases k <;> decide

/-- Occurrences of the two dict tags never properly overlap: the tags contain
`'<'` only as their first character, so one cannot begin strictly inside
another. -/
theorem tags_no_overlap {T₁ T₂ : List Char} (h₁ : isTag T₁) (h₂ : isTag T₂)
    {s : List Char} {i j : Nat} (o₁ : occAt T₁ s i) (o₂ : occAt T₂ s j)
    (hij : i < j) (hj : j < i + T₁.length) : False := by
  have e1 : s[j]? = T₁[j - i]? := by
    have h := occAt_getElem o₁ (k := j - i) (by omega)
    rwa [show i + (j - i) = j by omega] at h
  have e2 : s[j]? = some '<' := by
    have hlen : 0 < T₂.length := List.length_pos.mpr (tag_ne_nil h₂)
    have h := occAt_getElem o₂ (k := 0) hlen
    rw [Nat.add_zero] at h
    rw [h]
    exact tag_head h₂
  exact tag_inside_ne_head h₁ (by omega) (by omega) (e1 ▸ e2)

/-- The open and close tags never occur at the same position. -/
theorem open_close_ne_same {s : List Char} {i : Nat}
    (h1 : occAt openTag s i) (h2 : occAt closeTag s i) : False := by
  have e1 := occAt_getElem h1 (k := 1) (by decide)
  have e2 := occAt_getElem h2 (k := 1) (by decide)
  rw [e1] at e2
  exact absurd e2 (by decide)

theorem occAt_append_right {a b pat : List Char} {j : Nat} :
    occAt pat (a ++ b) (a.length + j) ↔ occAt pat b j := by
  unfold occAt
  rw [List.drop_append]

theorem occAt_append_left {a b pat : List Char} {j : Nat}
    (hj : j + pat.length ≤ a.length) :
    occAt pat (a ++ b) j ↔ occAt pat a j := by
  unfold occAt
  rw [List.drop_append_of_le_length (by omega), List.prefix_iff_eq_take,
    List.prefix_iff_eq_take,
    List.take_append_of_le_length (by rw [List.length_drop]; omega)]

/-- An occurrence right at the boundary of a left factor. -/
theorem occAt_boundary {a b pat : List Char} (h : pat <+: b) :
    occAt pat (a ++ b) a.length := by
  have := (@occAt_append_right a b pat 0).mpr
  simpa [occAt] using this (by simpa [occAt] using h)

theorem openTag_length : openTag.length = 6 := by decide

theorem closeTag_length : closeTag.length = 7 := by decide

/-!
## `extractTopLevelDicts` (src/shared/plist/parser.ts, lines 13-47)

The inner depth-tracking `while` loop (lines 23-41) is embedded as
`scanClose`; the outer loop (lines 17-44) as `extractFrom`.
-/

/-- Fuel-based body of `scanClose`; the fuel strictly exceeds the number of
remaining positions, and the cursor advances by at least one per iteration,
so the fuel never runs out on the wrapper's call. -/
def scanCloseAux : Nat → List Char → Nat → Nat → Option Nat
  | 0, _, _, _ => none
  | fuel + 1, xml, cur, depth =>
    if cur < xml.length ∧ 0 < depth then
      match findFrom closeTag xml cur with
      | none => none
      | some nextClose =>
        match findFrom openTag xml cur with
        | some nextOpen =>
          if nextOpen < nextClose then
            scanCloseAux fuel xml (nextOpen + 6) (depth + 1)
          else if depth = 1 then some nextClose
          else scanCloseAux fuel xml (nextClose + 7) (depth - 1)
        | none =>
          if depth = 1 then some nextClose
          else scanCloseAux fuel xml (nextClose + 7) (depth - 1)
    else none

/-- Inner loop of `extractTopLevelDicts` (parser.ts lines 23-41): scanning
from `cur` at nesting level `depth`, return the index of the `"</dict>"`
that brings the depth to zero, or `none` when the block is unterminated
(`nextClose === -1` or the scan runs off the end of the string). -/
def scanClose (xml : List Char) (cur depth : Nat) : Option Nat :=
  scanCloseAux (xml.length - cur) xml cur depth

theorem scanCloseAux_sufficient {xml : List Char} :
    ∀ {fuel₁ fuel₂ cur depth : Nat}, xml.length - cur ≤ fuel₁ →
      xml.length - cur ≤ fuel₂ →
      scanCloseAux fuel₁ xml cur depth = scanCloseAux fuel₂ xml cur depth := by
  intro fuel₁
  induction fuel₁ with
  | zero =>
    intro fuel₂ cur depth h₁ h₂
    cases fuel₂ with
    | zero => rfl
    | succ g => rw [scanCloseAux, scanCloseAux, if_neg (by omega)]
  | succ f ih =>
    intro fuel₂ cur depth h₁ h₂
    cases fuel₂ with
    | zero => rw [scanCloseAux, scanCloseAux, if_neg (by omega)]
    | succ g =>
      rw [scanCloseAux, scanCloseAux]
      by_cases hguard : cur < xml.length ∧ 0 < depth
      · rw [if_pos hguard, if_pos hguard]
        cases hfc : findFrom closeTag xml cur with
        | none => simp only [hfc]
        | some nextClose =>
          have hc1 := (findFrom_some hfc).1
          simp only [hfc]
          cases hfo : findFrom openTag xml cur with
          | none =>
            simp only [hfo]
            by_cases hdep : depth = 1
            · simp only [hdep, if_true]
            · simp only [hdep, if_false]
              exact ih (by omega) (by omega)
          | some nextOpen =>
            have ho1 := (findFrom_some hfo).1
            simp only [hfo]
            by_cases hlt : nextOpen < nextClose
            · simp only [hlt, if_true]
              exact ih (by omega) (by omega)
            · simp only [hlt, if_false]
              by_cases hdep : depth = 1
              · simp only [hdep, if_true]
              · simp only [hdep, if_false]
                exact ih (by omega) (by omega)
      · rw [if_neg hguard, if_neg hguard]

/-- The defining loop equation of `scanClose`. -/
theorem scanClose_unfold (xml : List Char) (cur depth : Nat) :
    scanClose xml cur depth =
      if cur < xml.length ∧ 0 < depth then
        match findFrom closeTag xml cur with
        | none => none
        | some nextClose =>
          match findFrom openTag xml cur with
          | some nextOpen =>
            if nextOpen < nextClose then
              scanClose xml (nextOpen + 6) (depth + 1)
            else if depth = 1 then some nextClose
            else scanClose xml (nextClose + 7) (depth - 1)
          | none =>
            if depth = 1 then some nextClose
            else scanClose xml (nextClose + 7) (depth - 1)
      else none := by
  rw [scanClose]
  cases hf : xml.length - cur with
  | zero =>
    rw [show scanCloseAux 0 xml cur depth = none from rfl, if_neg (by omega)]
  | succ f =>
    rw [scanCloseAux]
    by_cases hguard : cur < xml.length ∧ 0 < depth
    · rw [if_pos hguard, if_pos hguard]
      cases hfc : findFrom closeTag xml cur with
      | none => simp only [hfc]
      | some nextClose =>
        have hc1 := (findFrom_some hfc).1
        simp only [hfc]
        cases hfo : findFrom openTag xml cur with
        | none =>
          simp only [hfo]
          by_cases hdep : depth = 1
          · simp only [hdep, if_true]
          · simp only [hdep, if_false]
            rw [scanClose]
            exact scanCloseAux_sufficient (by omega) (by omega)
        | some nextOpen =>
          have ho1 := (findFrom_some hfo).1
          simp only [hfo]
          by_cases hlt : nextOpen < nextClose
          · simp only [hlt, if_true]
            rw [scanClose]
            exact scanCloseAux_sufficient (by omega) (by omega)
          · simp only [hlt, if_false]
            by_cases hdep : depth = 1
            · simp only [hdep, if_true]
            · simp only [hdep, if_false]
              rw [scanClose]
              exact scanCloseAux_sufficient (by omega) (by omega)
    · rw [if_neg hguard, if_neg hguard]

theorem scanClose_bounds {xml : List Char} {cur depth nc : Nat}
    (h : scanClose xml cur depth = some nc) :
    cur ≤ nc ∧ nc + 7 ≤ xml.length := by
  rw [scanClose_unfold] at h
  split at h
  · rename_i hguard
    split at h
    · exact absurd h (by simp)
    · rename_i nextClose hc
      obtain ⟨hc1, _, hc3, _⟩ := findFrom_some hc
      rw [closeTag_length] at hc3
      split at h
      · rename_i nextOpen ho
        have ho1 := (findFrom_some ho).1
        split at h
        · obtain ⟨ih1, ih2⟩ := scanClose_bounds h
          constructor <;> omega
        · split at h
          · obtain rfl : nextClose = nc := Option.some.inj h
            constructor <;> omega
          · obtain ⟨ih1, ih2⟩ := scanClose_bounds h
            constructor <;> omega
      · split at h
        · obtain rfl : nextClose = nc := Option.some.inj h
          constructor <;> omega
        · obtain ⟨ih1, ih2⟩ := scanClose_bounds h
          constructor <;> omega
  · exact absurd h (by simp)
termination_by xml.length - cur
decreasing_by
  · omega
  · omega
  · omega

/-- Outer loop of `extractTopLevelDicts`: starting at `pos`, find each
top-level `"<dict>"`, match its close with `scanClose`, and collect the inner
content `xml.slice(openIdx + 6, nextClose)` of each complete block. -/
def extractFromAux : Nat → List Char → Nat → List (List Char)
  | 0, _, _ => []
  | fuel + 1, xml, pos =>
    if pos < xml.length then
      match findFrom openTag xml pos with
      | none => []
      | some openIdx =>
        match scanClose xml (openIdx + 6) 1 with
        | none => []
        | some nextClose =>
          ((xml.drop (openIdx + 6)).take (nextClose - (openIdx + 6))) ::
            extractFromAux fuel xml (nextClose + 7)
    else []

def extractFrom (xml : List Char) (pos : Nat) : List (List Char) :=
  extractFromAux (xml.length - pos) xml pos

theorem extractFromAux_sufficient {xml : List Char} :
    ∀ {fuel₁ fuel₂ pos : Nat}, xml.length - pos ≤ fuel₁ →
      xml.length - pos ≤ fuel₂ →
      extractFromAux fuel₁ xml pos = extractFromAux fuel₂ xml pos := by
  intro fuel₁
  induction fuel₁ with
  | zero =>
    intro fuel₂ pos h₁ h₂
    cases fuel₂ with
    | zero => rfl
    | succ g => rw [extractFromAux, extractFromAux, if_neg (by omega)]
  | succ f ih =>
    intro fuel₂ pos h₁ h₂
    cases fuel₂ with
    | zero => rw [extractFromAux, extractFromAux, if_neg (by omega)]
    | succ g =>
      rw [extractFromAux, extractFromAux]
      by_cases hg : pos < xml.length
      · rw [if_pos hg, if_pos hg]
        cases hf : findFrom openTag xml pos with
        | none => simp only [hf]
        | some openIdx =>
          have h1 := (findFrom_some hf).1
          simp only [hf]
          cases hs : scanClose xml (openIdx + 6) 1 with
          | none => simp only [hs]
          | some nextClose =>
            obtain ⟨h2, h3⟩ := scanClose_bounds hs
            simp only [hs]
            rw [@ih g (nextClose + 7) (by omega) (by omega)]
      · rw [if_neg hg, if_neg hg]

/-- The defining loop equation of `extractFrom`. -/
theorem extractFrom_unfold (xml : List Char) (pos : Nat) :
    extractFrom xml pos =
      if pos < xml.length then
        match findFrom openTag xml pos with
        | none => []
        | some openIdx =>
          match scanClose xml (openIdx + 6) 1 with
          | none => []
          | some nextClose =>
            ((xml.drop (openIdx + 6)).take (nextClose - (openIdx + 6))) ::
              extractFrom xml (nextClose + 7)
      else [] := by
  rw [extractFrom]
  cases hfuel : xml.length - pos with
  | zero =>
    rw [show extractFromAux 0 xml pos = [] from rfl]
    rw [if_neg (by omega)]
  | succ f =>
    rw [extractFromAux]
    by_cases hg : pos < xml.length
    · rw [if_pos hg, if_pos hg]
      cases hf : findFrom openTag xml pos with
      | none => simp only [hf]
      | some openIdx =>
        have h1 := (findFrom_some hf).1
        simp only [hf]
        cases hs : scanClose xml (openIdx + 6) 1 with
        | none => simp only [hs]
        | some nextClose =>
          obtain ⟨h2, h3⟩ := scanClose_bounds hs
          simp only [hs]
          rw [extractFrom]
          rw [@extractFromAux_sufficient xml f (xml.length - (nextClose + 7))
            (nextClose + 7) (by omega) (by omega)]
    · rw [if_neg hg, if_neg hg]

/-- Embedding of `extractTopLevelDicts` (parser.ts line 13): extract the inner
content of every top-level `<dict>...</dict>` block. -/
def extractTopLevelDicts (xml : List Char) : List (List Char) :=
  extractFrom xml 0

/-!
## Well-formed dict documents

A document in which every `"<dict>"` has a matching `"</dict>"` is generated
by the grammar below: `nil t` is a trailing text segment `t`, and
`cons t inner rest` is a text segment `t`, a `<dict>` block with inner
content `inner`, and then `rest`.  Well-formedness demands that the text
segments contain no occurrence of either tag (`noTagB`); occurrences of the
tags in the rendered string are then exactly the structural ones.
-/

inductive PContent where
  | nil (t : List Char)
  | cons (t : List Char) (inner rest : PContent)
deriving DecidableEq

/-- Render a document back to its string form. -/
def renderContent : PContent → List Char
  | .nil t => t
  | .cons t inner rest =>
      t ++ openTag ++ renderContent inner ++ closeTag ++ renderContent rest

/-- `t` contains no occurrence of `"<dict>"` or `"</dict>"` (executable). -/
def noTagB (t : List Char) : Bool :=
  (findFrom openTag t 0).isNone && (findFrom closeTag t 0).isNone

/-- All text segments of the document are free of dict tags. -/
def wfContent : PContent → Bool
  | .nil t => noTagB t
  | .cons t inner rest => noTagB t && wfContent inner && wfContent rest

/-- The inner content of each top-level `<dict>` block, in document order. -/
def topBlocks : PContent → List (List Char)
  | .nil _ => []
  | .cons _ inner rest => renderContent inner :: topBlocks rest

/-- Propositional form of `noTagB`. -/
def noTag (t : List Char) : Prop :=
  ∀ j, ¬ occAt openTag t j ∧ ¬ occAt closeTag t j

theorem noTagB_sound {t : List Char} (h : noTagB t = true) : noTag t := by
  unfold noTagB at h
  rw [Bool.and_eq_true, Option.isNone_iff_eq_none, Option.isNone_iff_eq_none] at h
  intro j
  exact ⟨findFrom_none (by decide) h.1 j (Nat.zero_le _),
    findFrom_none (by decide) h.2 j (Nat.zero_le _)⟩

/-!
### Occurrence analysis in rendered documents
-/

/-- No tag occurrence can start inside a tag-free text segment that is
immediately followed by a structural tag. -/
theorem no_occ_in_text {xml pre t suf T T₀ : List Char}
    (hx : xml = pre ++ (t ++ (T₀ ++ suf)))
    (hT : isTag T) (hT₀ : isTag T₀) (ht : noTag t)
    {j : Nat} (hj : j < t.length)
    (h : occAt T xml (pre.length + j)) : False := by
  subst hx
  rw [occAt_append_right] at h
  by_cases hin : j + T.length ≤ t.length
  · rw [occAt_append_left hin] at h
    rcases hT with hT | hT <;> subst hT
    · exact (ht j).1 h
    · exact (ht j).2 h
  · have hb : occAt T₀ (t ++ (T₀ ++ suf)) t.length :=
      occAt_boundary (List.prefix_append T₀ suf)
    exact tags_no_overlap hT hT₀ h hb hj (by omega)

/-- Any tag occurrence at or past `pre.length` in
`pre ++ t ++ T₀ ++ suf` (text `t` tag-free, `T ≠ T₀` structural tag at the
boundary) lies strictly beyond the boundary tag position. -/
theorem occ_past_boundary {xml pre t suf T T₀ : List Char}
    (hx : xml = pre ++ (t ++ (T₀ ++ suf)))
    (hT : isTag T) (hT₀ : isTag T₀) (hne : T ≠ T₀) (ht : noTag t)
    {k : Nat} (h : occAt T xml k) (hk : pre.length ≤ k) :
    pre.length + t.length < k := by
  obtain ⟨j, rfl⟩ := Nat.exists_eq_add_of_le hk
  by_cases hj : j < t.length
  · exact absurd h (fun hh => no_occ_in_text hx hT hT₀ ht hj hh)
  · rcases Nat.eq_or_lt_of_le (Nat.le_of_not_lt hj) with heq | hlt
    · exfalso
      subst hx
      rw [occAt_append_right, ← heq] at h
      have hb : occAt T₀ (t ++ (T₀ ++ suf)) t.length :=
        occAt_boundary (List.prefix_append T₀ suf)
      rcases hT with h1 | h1 <;> rcases hT₀ with h2 | h2 <;>
        subst h1 <;> subst h2
      · exact hne rfl
      · exact open_close_ne_same h hb
      · exact open_close_ne_same hb h
      · exact hne rfl
    · omega

/-- The first occurrence of the structural tag `T₀` at or past `pre.length`
in `pre ++ t ++ T₀ ++ suf` is exactly at the boundary `pre.length + t.length`. -/
theorem findFrom_boundary {xml pre t suf T₀ : List Char}
    (hx : xml = pre ++ (t ++ (T₀ ++ suf)))
    (hT₀ : isTag T₀) (ht : noTag t) :
    findFrom T₀ xml pre.length = some (pre.length + t.length) := by
  apply findFrom_eq_some_of (tag_ne_nil hT₀)
  · subst hx
    have hb : occAt T₀ (t ++ (T₀ ++ suf)) t.length :=
      occAt_boundary (List.prefix_append T₀ suf)
    exact (occAt_append_right).mpr hb
  · omega
  · intro j hj1 hj2 hocc
    obtain ⟨j', rfl⟩ := Nat.exists_eq_add_of_le hj1
    exact no_occ_in_text hx hT₀ hT₀ ht (by omega) hocc

/-!
### One-step unfolding lemmas for the two loops
-/

theorem scanClose_guard_fail {xml : List Char} {cur depth : Nat}
    (h : ¬ (cur < xml.length ∧ 0 < depth)) : scanClose xml cur depth = none := by
  rw [scanClose_unfold, if_neg h]

theorem scanClose_no_close {xml : List Char} {cur depth : Nat}
    (hc : findFrom closeTag xml cur = none) : scanClose xml cur depth = none := by
  rw [scanClose_unfold]
  split
  · split
    · rfl
    · rename_i nc hc2
      rw [hc] at hc2
      simp at hc2
  · rfl

theorem scanClose_close_branch {xml : List Char} {cur depth nc : Nat}
    (hg : cur < xml.length) (hd : 0 < depth)
    (hc : findFrom closeTag xml cur = some nc)
    (ho : ∀ no, findFrom openTag xml cur = some no → nc ≤ no) :
    scanClose xml cur depth =
      if depth = 1 then some nc
      else scanClose xml (nc + 7) (depth - 1) := by
  rw [scanClose_unfold, if_pos ⟨hg, hd⟩]
  split
  · rename_i hc2
    rw [hc] at hc2
    simp at hc2
  · rename_i nc2 hc2
    rw [hc] at hc2
    obtain rfl : nc = nc2 := Option.some.inj hc2
    split
    · rename_i no2 ho2
      rw [if_neg (by have := ho no2 ho2; omega)]
    · rfl

theorem scanClose_open_branch {xml : List Char} {cur depth nc no : Nat}
    (hg : cur < xml.length) (hd : 0 < depth)
    (hc : findFrom closeTag xml cur = some nc)
    (ho : findFrom openTag xml cur = some no) (hlt : no < nc) :
    scanClose xml cur depth = scanClose xml (no + 6) (depth + 1) := by
  rw [scanClose_unfold, if_pos ⟨hg, hd⟩]
  split
  · rename_i hc2
    rw [hc] at hc2
    simp at hc2
  · rename_i nc2 hc2
    rw [hc] at hc2
    obtain rfl : nc = nc2 := Option.some.inj hc2
    split
    · rename_i no2 ho2
      rw [ho] at ho2
      obtain rfl : no = no2 := Option.some.inj ho2
      rw [if_pos hlt]
    · rename_i ho2
      rw [ho] at ho2
      simp at ho2

theorem extractFrom_stop {xml : List Char} {pos : Nat}
    (hf : findFrom openTag xml pos = none) : extractFrom xml pos = [] := by
  rw [extractFrom_unfold]
  split
  · split
    · rfl
    · rename_i oi hf2
      rw [hf] at hf2
      simp at hf2
  · rfl

theorem extractFrom_unterminated {xml : List Char} {pos oi : Nat}
    (hg : pos < xml.length) (hf : findFrom openTag xml pos = some oi)
    (hs : scanClose xml (oi + 6) 1 = none) : extractFrom xml pos = [] := by
  rw [extractFrom_unfold, if_pos hg]
  split
  · rfl
  · rename_i oi2 hf2
    rw [hf] at hf2
    obtain rfl : oi = oi2 := Option.some.inj hf2
    split
    · rfl
    · rename_i nc hs2
      rw [hs] at hs2
      simp at hs2

theorem extractFrom_found {xml : List Char} {pos oi nc : Nat}
    (hg : pos < xml.length) (hf : findFrom openTag xml pos = some oi)
    (hs : scanClose xml (oi + 6) 1 = some nc) :
    extractFrom xml pos =
      ((xml.drop (oi + 6)).take (nc - (oi + 6))) :: extractFrom xml (nc + 7) := by
  rw [extractFrom_unfold, if_pos hg]
  split
  · rename_i hf2
    rw [hf] at hf2
    simp at hf2
  · rename_i oi2 hf2
    rw [hf] at hf2
    obtain rfl : oi = oi2 := Option.some.inj hf2
    split
    · rename_i hs2
      rw [hs] at hs2
      simp at hs2
    · rename_i nc2 hs2
      rw [hs] at hs2
      obtain rfl : nc = nc2 := Option.some.inj hs2
      rfl

/-!
### The scanner on rendered well-formed documents
-/

theorem wfContent_cons_iff {t : List Char} {inner rest₂ : PContent} :
    wfContent (.cons t inner rest₂) = true ↔
      noTagB t = true ∧ wfContent inner = true ∧ wfContent rest₂ = true := by
  simp [wfContent, Bool.and_eq_true, and_assoc]

/-- Scanning a rendered well-formed document followed by a `"</dict>"`:
at depth 1 the scan resolves to that close tag; at greater depth it
decrements and continues after it. -/
theorem scanClose_render (c : PContent) (hwf : wfContent c = true)
    (pre rest : List Char) (depth : Nat) (hd : 1 ≤ depth) :
    scanClose (pre ++ (renderContent c ++ (closeTag ++ rest))) pre.length depth =
      if depth = 1 then some (pre.length + (renderContent c).length)
      else scanClose (pre ++ (renderContent c ++ (closeTag ++ rest)))
        (pre.length + (renderContent c).length + 7) (depth - 1) := by
  induction c generalizing pre rest depth with
  | nil t =>
    have ht : noTag t := noTagB_sound (by simpa [wfContent] using hwf)
    simp only [renderContent]
    have hg : pre.length < (pre ++ (t ++ (closeTag ++ rest))).length := by
      simp only [List.length_append, closeTag_length]
      omega
    have hfc : findFrom closeTag (pre ++ (t ++ (closeTag ++ rest))) pre.length
        = some (pre.length + t.length) := findFrom_boundary rfl (Or.inr rfl) ht
    rw [scanClose_close_branch hg (by omega) hfc ?holo]
    case holo =>
      intro no hno
      obtain ⟨h1, h2, _, _⟩ := findFrom_some hno
      have := occ_past_boundary rfl (Or.inl rfl) (Or.inr rfl) (by decide) ht h2 h1
      omega
  | cons t inner rest₂ ihInner ihRest =>
    obtain ⟨hwt, hwi, hwr⟩ := wfContent_cons_iff.mp hwf
    have ht : noTag t := noTagB_sound hwt
    simp only [renderContent]
    set I := renderContent inner with hI
    set R := renderContent rest₂ with hR
    have hx : pre ++ ((t ++ openTag ++ I ++ closeTag ++ R) ++ (closeTag ++ rest)) =
        pre ++ (t ++ (openTag ++ (I ++ (closeTag ++ (R ++ (closeTag ++ rest)))))) := by
      simp only [List.append_assoc]
    have hLen : (t ++ openTag ++ I ++ closeTag ++ R).length =
        t.length + (6 + (I.length + (7 + R.length))) := by
      simp only [List.length_append, openTag_length, closeTag_length]
      omega
    rw [hLen, hx]
    have hg : pre.length <
        (pre ++ (t ++ (openTag ++ (I ++ (closeTag ++ (R ++ (closeTag ++ rest))))))).length := by
      simp only [List.length_append, openTag_length, closeTag_length]
      omega
    have hfo : findFrom openTag
        (pre ++ (t ++ (openTag ++ (I ++ (closeTag ++ (R ++ (closeTag ++ rest)))))))
        pre.length = some (pre.length + t.length) :=
      findFrom_boundary rfl (Or.inl rfl) ht
    have hocc : occAt closeTag
        (pre ++ (t ++ (openTag ++ (I ++ (closeTag ++ (R ++ (closeTag ++ rest)))))))
        ((pre ++ (t ++ (openTag ++ I))).length) := by
      rw [show pre ++ (t ++ (openTag ++ (I ++ (closeTag ++ (R ++ (closeTag ++ rest)))))) =
          (pre ++ (t ++ (openTag ++ I))) ++ (closeTag ++ (R ++ (closeTag ++ rest)))
        from by simp only [List.append_assoc]]
      exact occAt_boundary (List.prefix_append _ _)
    cases hfc : findFrom closeTag
        (pre ++ (t ++ (openTag ++ (I ++ (closeTag ++ (R ++ (closeTag ++ rest)))))))
        pre.length with
    | none =>
      exact absurd hocc (findFrom_none (by decide) hfc _ (by
        simp only [List.length_append, openTag_length]
        omega))
    | some nc =>
      obtain ⟨hnc1, hnc2, _, _⟩ := findFrom_some hfc
      have hgt : pre.length + t.length < nc :=
        occ_past_boundary rfl (Or.inr rfl) (Or.inl rfl) (by decide) ht hnc2 hnc1
      rw [scanClose_open_branch hg (by omega) hfc hfo (by omega)]
      have hIH := ihInner hwi (pre ++ (t ++ openTag)) (R ++ (closeTag ++ rest))
        (depth + 1) (by omega)
      rw [show (pre ++ (t ++ openTag)) ++ (I ++ (closeTag ++ (R ++ (closeTag ++ rest)))) =
          pre ++ (t ++ (openTag ++ (I ++ (closeTag ++ (R ++ (closeTag ++ rest))))))
        from by simp only [List.append_assoc]] at hIH
      rw [show (pre ++ (t ++ openTag)).length = pre.length + t.length + 6 from by
        simp only [List.length_append, openTag_length]
        omega] at hIH
      rw [if_neg (by omega), Nat.add_sub_cancel] at hIH
      rw [hIH]
      have hIH2 := ihRest hwr (pre ++ (t ++ (openTag ++ (I ++ closeTag)))) rest depth hd
      rw [show (pre ++ (t ++ (openTag ++ (I ++ closeTag)))) ++ (R ++ (closeTag ++ rest)) =
          pre ++ (t ++ (openTag ++ (I ++ (closeTag ++ (R ++ (closeTag ++ rest))))))
        from by simp only [List.append_assoc]] at hIH2
      rw [show (pre ++ (t ++ (openTag ++ (I ++ closeTag)))).length =
          pre.length + t.length + 6 + I.length + 7 from by
        simp only [List.length_append, openTag_length, closeTag_length]
        omega] at hIH2
      rw [hIH2]
      by_cases hdep : depth = 1
      · rw [if_pos hdep, if_pos hdep]
        congr 1
        omega
      · rw [if_neg hdep, if_neg hdep]
        congr 2
        omega

/-- Trailing garbage after a well-formed prefix: a non-empty chain of
unmatched `"<dict>"` opens, each followed by well-formed content. -/
def renderChain : List PContent → List Char
  | [] => []
  | c :: cs => openTag ++ (renderContent c ++ renderChain cs)

def wfChain : List PContent → Bool
  | [] => true
  | c :: cs => wfContent c && wfChain cs

/-- One step of the scanner over a `cons` document: the scan enters the
`<dict>` block, `scanClose_render` resolves its inner content, and the scan
resumes right after the block's close tag, for an arbitrary trailing string
`g`. -/
theorem scanClose_cons_step (t : List Char) (inner rest₂ : PContent)
    (hwt : noTagB t = true) (hwi : wfContent inner = true)
    (g pre : List Char) (depth : Nat) (hd : 1 ≤ depth) :
    scanClose (pre ++ (renderContent (.cons t inner rest₂) ++ g)) pre.length depth =
      scanClose (pre ++ (renderContent (.cons t inner rest₂) ++ g))
        (pre.length + t.length + 6 + (renderContent inner).length + 7) depth := by
  have ht : noTag t := noTagB_sound hwt
  simp only [renderContent]
  set I := renderContent inner with hI
  set R := renderContent rest₂ with hR
  rw [show pre ++ ((t ++ openTag ++ I ++ closeTag ++ R) ++ g) =
      pre ++ (t ++ (openTag ++ (I ++ (closeTag ++ (R ++ g)))))
    from by simp only [List.append_assoc]]
  have hfo : findFrom openTag
      (pre ++ (t ++ (openTag ++ (I ++ (closeTag ++ (R ++ g))))))
      pre.length = some (pre.length + t.length) :=
    findFrom_boundary rfl (Or.inl rfl) ht
  have hocc : occAt closeTag
      (pre ++ (t ++ (openTag ++ (I ++ (closeTag ++ (R ++ g))))))
      ((pre ++ (t ++ (openTag ++ I))).length) := by
    rw [show pre ++ (t ++ (openTag ++ (I ++ (closeTag ++ (R ++ g))))) =
        (pre ++ (t ++ (openTag ++ I))) ++ (closeTag ++ (R ++ g))
      from by simp only [List.append_assoc]]
    exact occAt_boundary (List.prefix_append _ _)
  cases hfc : findFrom closeTag
      (pre ++ (t ++ (openTag ++ (I ++ (closeTag ++ (R ++ g))))))
      pre.length with
  | none =>
    exact absurd hocc (findFrom_none (by decide) hfc _ (by
      simp only [List.length_append, openTag_length]
      omega))
  | some nc =>
    obtain ⟨hnc1, hnc2, _, _⟩ := findFrom_some hfc
    have hgt : pre.length + t.length < nc :=
      occ_past_boundary rfl (Or.inr rfl) (Or.inl rfl) (by decide) ht hnc2 hnc1
    have hg : pre.length <
        (pre ++ (t ++ (openTag ++ (I ++ (closeTag ++ (R ++ g)))))).length := by
      simp only [List.length_append, openTag_length]
      omega
    rw [scanClose_open_branch hg (by omega) hfc hfo (by omega)]
    have hsr := scanClose_render inner hwi (pre ++ (t ++ openTag))
      (R ++ g) (depth + 1) (by omega)
    rw [show (pre ++ (t ++ openTag)) ++ (renderContent inner ++ (closeTag ++
        (R ++ g))) =
        pre ++ (t ++ (openTag ++ (I ++ (closeTag ++ (R ++ g)))))
      from by simp only [← hI, List.append_assoc]] at hsr
    rw [show (pre ++ (t ++ openTag)).length = pre.length + t.length + 6 from by
      simp only [List.length_append, openTag_length]
      omega] at hsr
    rw [if_neg (by omega), Nat.add_sub_cancel, ← hI] at hsr
    exact hsr

/-- If appending `g` after any tag-free text kills the scan, then appending
`g` after any rendered well-formed document kills the scan. -/
theorem scanClose_append_none (g : List Char)
    (hnil : ∀ t : List Char, noTag t → ∀ (pre : List Char) (depth : Nat),
      1 ≤ depth → scanClose (pre ++ (t ++ g)) pre.length depth = none) :
    ∀ c : PContent, wfContent c = true → ∀ (pre : List Char) (depth : Nat),
      1 ≤ depth → scanClose (pre ++ (renderContent c ++ g)) pre.length depth = none := by
  intro c
  induction c with
  | nil t =>
    intro hwf pre depth hd
    exact hnil t (noTagB_sound (by simpa [wfContent] using hwf)) pre depth hd
  | cons t inner rest₂ _ ihRest =>
    intro hwf pre depth hd
    obtain ⟨hwt, hwi, hwr⟩ := wfContent_cons_iff.mp hwf
    rw [scanClose_cons_step t inner rest₂ hwt hwi g pre depth hd]
    have h := ihRest hwr (pre ++ (t ++ (openTag ++ (renderContent inner ++ closeTag))))
      depth hd
    rw [show (pre ++ (t ++ (openTag ++ (renderContent inner ++ closeTag)))) ++
        (renderContent rest₂ ++ g) =
        pre ++ (renderContent (.cons t inner rest₂) ++ g)
      from by simp only [renderContent, List.append_assoc]] at h
    rw [show (pre ++ (t ++ (openTag ++ (renderContent inner ++ closeTag)))).length =
        pre.length + t.length + 6 + (renderContent inner).length + 7 from by
      simp only [List.length_append, openTag_length, closeTag_length]
      omega] at h
    exact h

/-- Scanning a rendered well-formed document followed by unmatched opens
only: the scan never resolves (the unterminated-block case). -/
theorem scanClose_chain (cs : List PContent) :
    ∀ c : PContent, wfContent c = true → wfChain cs = true →
      ∀ (pre : List Char) (depth : Nat), 1 ≤ depth →
        scanClose (pre ++ (renderContent c ++ renderChain cs)) pre.length depth = none := by
  induction cs with
  | nil =>
    intro c hwf _ pre depth hd
    refine scanClose_append_none (renderChain []) ?_ c hwf pre depth hd
    intro t ht pre' depth' hd'
    simp only [renderChain, List.append_nil]
    apply scanClose_no_close
    apply findFrom_eq_none_of
    intro j hj hocc
    obtain ⟨j', rfl⟩ := Nat.exists_eq_add_of_le hj
    rw [occAt_append_right] at hocc
    exact (ht j').2 hocc
  | cons c₁ cs' ihcs =>
    intro c hwf hcs pre depth hd
    obtain ⟨h₁, hcs'⟩ : wfContent c₁ = true ∧ wfChain cs' = true := by
      simpa [wfChain, Bool.and_eq_true] using hcs
    refine scanClose_append_none (renderChain (c₁ :: cs')) ?_ c hwf pre depth hd
    intro t ht pre' depth' hd'
    simp only [renderChain]
    have hfo : findFrom openTag
        (pre' ++ (t ++ (openTag ++ (renderContent c₁ ++ renderChain cs'))))
        pre'.length = some (pre'.length + t.length) :=
      findFrom_boundary rfl (Or.inl rfl) ht
    cases hfc : findFrom closeTag
        (pre' ++ (t ++ (openTag ++ (renderContent c₁ ++ renderChain cs'))))
        pre'.length with
    | none => exact scanClose_no_close hfc
    | some nc =>
      obtain ⟨hnc1, hnc2, _, _⟩ := findFrom_some hfc
      have hgt : pre'.length + t.length < nc :=
        occ_past_boundary rfl (Or.inr rfl) (Or.inl rfl) (by decide) ht hnc2 hnc1
      have hg : pre'.length <
          (pre' ++ (t ++ (openTag ++ (renderContent c₁ ++ renderChain cs')))).length := by
        simp only [List.length_append, openTag_length]
        omega
      rw [scanClose_open_branch hg (by omega) hfc hfo (by omega)]
      have h := ihcs c₁ h₁ hcs' (pre' ++ (t ++ openTag)) (depth' + 1) (by omega)
      rw [show (pre' ++ (t ++ openTag)) ++ (renderContent c₁ ++ renderChain cs') =
          pre' ++ (t ++ (openTag ++ (renderContent c₁ ++ renderChain cs')))
        from by simp only [List.append_assoc]] at h
      rw [show (pre' ++ (t ++ openTag)).length = pre'.length + t.length + 6 from by
        simp only [List.length_append, openTag_length]
        omega] at h
      exact h

/-- The outer loop on a rendered well-formed document followed by a
(possibly empty) chain of unmatched opens: exactly the complete top-level
blocks are collected. -/
theorem extractFrom_render (cs : List PContent) (hcs : wfChain cs = true) :
    ∀ c : PContent, wfContent c = true → ∀ pre : List Char,
      extractFrom (pre ++ (renderContent c ++ renderChain cs)) pre.length =
        topBlocks c := by
  intro c
  induction c with
  | nil t =>
    intro hwf pre
    have ht : noTag t := noTagB_sound (by simpa [wfContent] using hwf)
    cases cs with
    | nil =>
      simp only [renderContent, renderChain, List.append_nil, topBlocks]
      apply extractFrom_stop
      apply findFrom_eq_none_of
      intro j hj hocc
      obtain ⟨j', rfl⟩ := Nat.exists_eq_add_of_le hj
      rw [occAt_append_right] at hocc
      exact (ht j').1 hocc
    | cons c₁ cs' =>
      obtain ⟨h₁, hcs'⟩ : wfContent c₁ = true ∧ wfChain cs' = true := by
        simpa [wfChain, Bool.and_eq_true] using hcs
      simp only [renderContent, renderChain, topBlocks]
      have hfo : findFrom openTag
          (pre ++ (t ++ (openTag ++ (renderContent c₁ ++ renderChain cs'))))
          pre.length = some (pre.length + t.length) :=
        findFrom_boundary rfl (Or.inl rfl) ht
      have hsc : scanClose
          (pre ++ (t ++ (openTag ++ (renderContent c₁ ++ renderChain cs'))))
          (pre.length + t.length + 6) 1 = none := by
        have h := scanClose_chain cs' c₁ h₁ hcs' (pre ++ (t ++ openTag)) 1
          (Nat.le_refl 1)
        rw [show (pre ++ (t ++ openTag)) ++ (renderContent c₁ ++ renderChain cs') =
            pre ++ (t ++ (openTag ++ (renderContent c₁ ++ renderChain cs')))
          from by simp only [List.append_assoc]] at h
        rw [show (pre ++ (t ++ openTag)).length = pre.length + t.length + 6 from by
          simp only [List.length_append, openTag_length]
          omega] at h
        exact h
      have hg : pre.length <
          (pre ++ (t ++ (openTag ++ (renderContent c₁ ++ renderChain cs')))).length := by
        simp only [List.length_append, openTag_length]
        omega
      exact extractFrom_unterminated hg hfo hsc
  | cons t inner rest₂ _ ihRest =>
    intro hwf pre
    obtain ⟨hwt, hwi, hwr⟩ := wfContent_cons_iff.mp hwf
    have ht : noTag t := noTagB_sound hwt
    simp only [renderContent, topBlocks]
    set I := renderContent inner with hI
    set R := renderContent rest₂ with hR
    rw [show pre ++ ((t ++ openTag ++ I ++ closeTag ++ R) ++ renderChain cs) =
        pre ++ (t ++ (openTag ++ (I ++ (closeTag ++ (R ++ renderChain cs)))))
      from by simp only [List.append_assoc]]
    have hfo : findFrom openTag
        (pre ++ (t ++ (openTag ++ (I ++ (closeTag ++ (R ++ renderChain cs))))))
        pre.length = some (pre.length + t.length) :=
      findFrom_boundary rfl (Or.inl rfl) ht
    have hsc : scanClose
        (pre ++ (t ++ (openTag ++ (I ++ (closeTag ++ (R ++ renderChain cs))))))
        (pre.length + t.length + 6) 1 = some (pre.length + t.length + 6 + I.length) := by
      have hsr := scanClose_render inner hwi (pre ++ (t ++ openTag))
        (R ++ renderChain cs) 1 (Nat.le_refl 1)
      rw [show (pre ++ (t ++ openTag)) ++ (renderContent inner ++ (closeTag ++
          (R ++ renderChain cs))) =
          pre ++ (t ++ (openTag ++ (I ++ (closeTag ++ (R ++ renderChain cs)))))
        from by simp only [← hI, List.append_assoc]] at hsr
      rw [show (pre ++ (t ++ openTag)).length = pre.length + t.length + 6 from by
        simp only [List.length_append, openTag_length]
        omega] at hsr
      rw [if_pos rfl, ← hI] at hsr
      exact hsr
    have hg : pre.length <
        (pre ++ (t ++ (openTag ++ (I ++ (closeTag ++ (R ++ renderChain cs)))))).length := by
      simp only [List.length_append, openTag_length]
      omega
    rw [extractFrom_found hg hfo hsc]
    congr 1
    · rw [show pre.length + t.length + 6 + I.length - (pre.length + t.length + 6) =
        I.length from by omega]
      rw [show pre ++ (t ++ (openTag ++ (I ++ (closeTag ++ (R ++ renderChain cs))))) =
          (pre ++ (t ++ openTag)) ++ (I ++ (closeTag ++ (R ++ renderChain cs)))
        from by simp only [List.append_assoc]]
      rw [show pre.length + t.length + 6 = (pre ++ (t ++ openTag)).length from by
        simp only [List.length_append, openTag_length]
        omega]
      rw [List.drop_left]
      exact List.take_left _ _
    · have h := ihRest hwr (pre ++ (t ++ (openTag ++ (I ++ closeTag))))
      rw [show (pre ++ (t ++ (openTag ++ (I ++ closeTag)))) ++
          (renderContent rest₂ ++ renderChain cs) =
          pre ++ (t ++ (openTag ++ (I ++ (closeTag ++ (R ++ renderChain cs)))))
        from by simp only [← hR, List.append_assoc]] at h
      rw [show (pre ++ (t ++ (openTag ++ (I ++ closeTag)))).length =
          pre.length + t.length + 6 + I.length + 7 from by
        simp only [List.length_append, openTag_length, closeTag_length]
        omega] at h
      exact h

/-- Each top-level block's content, wrapped back in its delimiters, is a
factor of the rendered document. -/
theorem topBlocks_span (c : PContent) :
    ∀ b ∈ topBlocks c,
      ∃ p s, renderContent c = p ++ (openTag ++ (b ++ (closeTag ++ s))) := by
  induction c with
  | nil t =>
    intro b hb
    simp [topBlocks] at hb
  | cons t inner rest₂ _ ihRest =>
    intro b hb
    simp only [topBlocks, List.mem_cons] at hb
    rcases hb with rfl | hb
    · exact ⟨t, renderContent rest₂, by simp only [renderContent, List.append_assoc]⟩
    · obtain ⟨p, s, hp⟩ := ihRest b hb
      refine ⟨t ++ (openTag ++ (renderContent inner ++ (closeTag ++ p))), s, ?_⟩
      simp only [renderContent, hp, List.append_assoc]

/-- **C1**: for every well-formed markup document (every `<dict>` open tag
has a matching `</dict>`, modelled by the grammar `PContent` with tag-free
text segments), `extractTopLevelDicts` returns exactly the inner contents of
the top-level `<dict>` blocks in document order, skipping nested same-tag
blocks, and wrapping each returned content back in `<dict>`...`</dict>`
reproduces a byte-identical span of the original document at that block's
position. -/
theorem extractTopLevelDicts_correct (c : PContent) (hwf : wfContent c = true) :
    extractTopLevelDicts (renderContent c) = topBlocks c ∧
    ∀ b ∈ extractTopLevelDicts (renderContent c),
      ∃ p s, renderContent c = p ++ (openTag ++ (b ++ (closeTag ++ s))) := by
  have h := extractFrom_render [] rfl c hwf []
  simp only [renderChain, List.append_nil, List.nil_append, List.length_nil] at h
  have h0 : extractTopLevelDicts (renderContent c) = topBlocks c := by
    rw [extractTopLevelDicts]
    exact h
  refine ⟨h0, ?_⟩
  rw [h0]
  exact topBlocks_span c

/-- Witness for C1 on the concrete document
`"k<dict>a<dict>b</dict>c</dict>m<dict>z</dict>q"`. -/
theorem extractTopLevelDicts_correct_witness :
    wfContent (.cons "k".toList (.cons "a".toList (.nil "b".toList) (.nil "c".toList))
      (.cons "m".toList (.nil "z".toList) (.nil "q".toList))) = true ∧
    (extractTopLevelDicts (renderContent (.cons "k".toList
        (.cons "a".toList (.nil "b".toList) (.nil "c".toList))
        (.cons "m".toList (.nil "z".toList) (.nil "q".toList)))) =
      topBlocks (.cons "k".toList (.cons "a".toList (.nil "b".toList) (.nil "c".toList))
        (.cons "m".toList (.nil "z".toList) (.nil "q".toList))) ∧
    ∀ b ∈ extractTopLevelDicts (renderContent (.cons "k".toList
        (.cons "a".toList (.nil "b".toList) (.nil "c".toList))
        (.cons "m".toList (.nil "z".toList) (.nil "q".toList)))),
      ∃ p s, renderContent (.cons "k".toList
        (.cons "a".toList (.nil "b".toList) (.nil "c".toList))
        (.cons "m".toList (.nil "z".toList) (.nil "q".toList))) =
          p ++ (openTag ++ (b ++ (closeTag ++ s)))) :=
  ⟨by decide, extractTopLevelDicts_correct _ (by decide)⟩

/-- **C8**: a document consisting of a well-formed prefix followed by an
unterminated block (an unmatched `<dict>` open, then further well-formed
content and possibly more unmatched opens): `extractTopLevelDicts` stops at
the unterminated block and returns exactly the complete top-level blocks
that precede it; the partial trailing data is silently dropped (the function
is total, so no error is raised). -/
theorem extractTopLevelDicts_unterminated (c c₁ : PContent) (cs : List PContent)
    (hwf : wfContent c = true) (h₁ : wfContent c₁ = true) (hcs : wfChain cs = true) :
    extractTopLevelDicts (renderContent c ++ renderChain (c₁ :: cs)) = topBlocks c := by
  have h := extractFrom_render (c₁ :: cs) (by simp [wfChain, h₁, hcs]) c hwf []
  rw [extractTopLevelDicts]
  simpa using h

/-- Witness for C8 on the concrete document `"p<dict>q</dict>r<dict>x"`
(the final `<dict>` is unterminated): only `"q"` is returned. -/
theorem extractTopLevelDicts_unterminated_witness :
    wfContent (.cons "p".toList (.nil "q".toList) (.nil "r".toList)) = true ∧
    wfContent (.nil "x".toList) = true ∧
    wfChain [] = true ∧
    extractTopLevelDicts (renderContent
        (.cons "p".toList (.nil "q".toList) (.nil "r".toList)) ++
      renderChain [.nil "x".toList]) =
      topBlocks (.cons "p".toList (.nil "q".toList) (.nil "r".toList)) :=
  ⟨by decide, by decide, by decide,
    extractTopLevelDicts_unterminated _ _ _ (by decide) (by decide) (by decide)⟩

/-!
## Label-anchored typed extractors (src/shared/plist/parser.ts, lines 49-132)

The source builds anchored regexes such as
`<key>K</key>\s*<string>([^<]*)</string>` (with `K` regex-escaped via
`escapeRegex`, i.e. matched literally) and takes the first (leftmost) match.
Because `\s*` is bounded by a following `<` and `[^<]*` excludes `<`, the
greedy match is deterministic, so the regex is embedded as a literal
scanner: try a match at each successive position, left to right.
-/

/-- JavaScript `\s` on the ASCII range (the Unicode space characters that JS
also accepts never occur in plist output and are not modelled). -/
def isSpaceJS (c : Char) : Bool :=
  c = ' ' || c = '\t' || c = '\n' || c = '\r' || c = '\x0b' || c = '\x0c'

/-- JavaScript `String.prototype.trim`. -/
def trimJS (s : List Char) : List Char :=
  ((s.dropWhile isSpaceJS).reverse.dropWhile isSpaceJS).reverse

/-- Match a literal pattern at the head, returning the remainder. -/
def matchLit (pat s : List Char) : Option (List Char) :=
  if pat.isPrefixOf s then some (s.drop pat.length) else none

/-- First successful match of `m` over the successive suffixes of the input,
left to right: the embedding of `RegExp.prototype.exec`'s leftmost-match
search. -/
def execFirst {α : Type} (m : List Char → Option α) : List Char → Option α
  | [] => m []
  | s@(_ :: rest) =>
    match m s with
    | some v => some v
    | none => execFirst m rest

/-- Try `<key>K</key>\s*<TAG>([^<]*)</TAG>` at the head of `s`, returning the
captured group. -/
def matchKeyTagged (key tagOpen tagClose : List Char) (s : List Char) :
    Option (List Char) :=
  match matchLit ("<key>".toList ++ key ++ "</key>".toList) s with
  | none => none
  | some r1 =>
    match matchLit tagOpen (r1.dropWhile isSpaceJS) with
    | none => none
    | some r3 =>
      match matchLit tagClose (r3.dropWhile (fun c => c ≠ '<')) with
      | none => none
      | some _ => some (r3.takeWhile (fun c => c ≠ '<'))

/-- `extractStringAfterKey` (parser.ts line 55): `<string>` value after
`<key>keyName</key>`, trimmed; `none` when the pattern does not occur. -/
def extractStringAfterKey (content keyName : List Char) : Option (List Char) :=
  (execFirst (matchKeyTagged keyName "<string>".toList "</string>".toList) content).map
    trimJS

/-- `extractDateAfterKey` (parser.ts line 64): `<date>` value after
`<key>keyName</key>`, trimmed. -/
def extractDateAfterKey (content keyName : List Char) : Option (List Char) :=
  (execFirst (matchKeyTagged keyName "<date>".toList "</date>".toList) content).map
    trimJS

/-- Try `<key>K</key>\s*<(true|false)/>` at the head of `s`. -/
def matchKeyBool (key : List Char) (s : List Char) : Option Bool :=
  match matchLit ("<key>".toList ++ key ++ "</key>".toList) s with
  | none => none
  | some r1 =>
    let r2 := r1.dropWhile isSpaceJS
    if ("<true/>".toList).isPrefixOf r2 then some true
    else if ("<false/>".toList).isPrefixOf r2 then some false
    else none

/-- `extractBoolAfterKey` (parser.ts line 73). -/
def extractBoolAfterKey (content keyName : List Char) : Option Bool :=
  execFirst (matchKeyBool keyName) content

/-- `extractIntegerAfterKey` (parser.ts line 83): the trimmed captured
`<integer>` text.  The source applies `parseInt(text, 10)` to this text; the
JavaScript number semantics (including `NaN`) are not modelled, as no claim
depends on the numeric value. -/
def extractIntegerAfterKey (content keyName : List Char) : Option (List Char) :=
  (execFirst (matchKeyTagged keyName "<integer>".toList "</integer>".toList)
    content).map trimJS

/-- `extractRealAfterKey` (parser.ts line 92): the trimmed captured `<real>`
text.  The source applies `parseFloat`; floating point is not modelled. -/
def extractRealAfterKey (content keyName : List Char) : Option (List Char) :=
  (execFirst (matchKeyTagged keyName "<real>".toList "</real>".toList)
    content).map trimJS

/-- Try `<key>K</key>\s*<dict>` at the head of `s`, returning the remainder
after the `<dict>`. -/
def matchKeyDict (key : List Char) (s : List Char) : Option (List Char) :=
  match matchLit ("<key>".toList ++ key ++ "</key>".toList) s with
  | none => none
  | some r1 => matchLit "<dict>".toList (r1.dropWhile isSpaceJS)

/-- `extractSubDictAfterKey` (parser.ts line 104): content of the `<dict>`
after `<key>keyName</key>`, respecting nesting depth.  The source's inner
loop (lines 113-129) is the same depth-tracking loop as
`extractTopLevelDicts`'s inner loop, here `scanClose` applied to the suffix
after the opening `<dict>`. -/
def extractSubDictAfterKey (content keyName : List Char) : Option (List Char) :=
  match execFirst (matchKeyDict keyName) content with
  | none => none
  | some rem =>
    match scanClose rem 0 1 with
    | none => none
    | some closeIdx => some (rem.take closeIdx)

/-!
## Smart-group / smart-rule enumerators
(src/tools/custom/list-smart-groups.ts lines 43-66,
 src/tools/custom/column-layout.ts lines 366-395)
-/

structure SmartGroupEntry where
  name : List Char
  uuid : List Char
  syncDate : Option (List Char)
  useUuidKey : Option Bool
deriving DecidableEq

structure SmartRuleEntry where
  name : List Char
  uuid : List Char
  enabled : Option Bool
  indexOffset : Option (List Char)
  lastExecution : Option (List Char)
  syncDate : Option (List Char)
  useUuidKey : Option Bool
deriving DecidableEq

/-- JavaScript falsiness of a `string | null` value: `null` and the empty
string are falsy (`!name` in the source). -/
def isFalsyStr : Option (List Char) → Bool
  | none => true
  | some s => s.isEmpty

/-- The `for (const dictContent of topLevelDicts)` loop of
`parsePlistXmlToSmartGroups` (list-smart-groups.ts lines 47-63), with
`continue` on `!name && !uuid`.  (The source guards the `sync` extractions
with JavaScript truthiness of `syncContent`; extracting from the empty
string yields `null` either way, so the plain `match` is equivalent.) -/
def smartGroupsLoop : List (List Char) → List SmartGroupEntry
  | [] => []
  | d :: ds =>
    let name := extractStringAfterKey d "name".toList
    let useUuidKey := extractBoolAfterKey d "UseUUIDKey".toList
    let syncContent := extractSubDictAfterKey d "sync".toList
    let uuid := match syncContent with
      | some sc => extractStringAfterKey sc "UUID".toList
      | none => none
    let syncDate := match syncContent with
      | some sc => extractDateAfterKey sc "date".toList
      | none => none
    if isFalsyStr name && isFalsyStr uuid then smartGroupsLoop ds
    else
      { name := name.getD "(unnamed)".toList, uuid := uuid.getD [],
        syncDate := syncDate, useUuidKey := useUuidKey } :: smartGroupsLoop ds

/-- `parsePlistXmlToSmartGroups` (list-smart-groups.ts line 43). -/
def parsePlistXmlToSmartGroups (xml : List Char) : List SmartGroupEntry :=
  smartGroupsLoop (extractTopLevelDicts xml)

/-- The block loop of `parsePlistXmlToSmartRules` (column-layout.ts lines
370-392). -/
def smartRulesLoop : List (List Char) → List SmartRuleEntry
  | [] => []
  | d :: ds =>
    let name := extractStringAfterKey d "name".toList
    let enabled := extractBoolAfterKey d "Enabled".toList
    let indexOffset := extractIntegerAfterKey d "IndexOffset".toList
    let lastExecution := extractRealAfterKey d "LastExecution".toList
    let useUuidKey := extractBoolAfterKey d "UseUUIDKey".toList
    let syncContent := extractSubDictAfterKey d "sync".toList
    let uuid := match syncContent with
      | some sc => extractStringAfterKey sc "UUID".toList
      | none => none
    let syncDate := match syncContent with
      | some sc => extractDateAfterKey sc "date".toList
      | none => none
    if isFalsyStr name && isFalsyStr uuid then smartRulesLoop ds
    else
      { name := name.getD "(unnamed)".toList, uuid := uuid.getD [],
        enabled := enabled, indexOffset := indexOffset,
        lastExecution := lastExecution, syncDate := syncDate,
        useUuidKey := useUuidKey } :: smartRulesLoop ds

/-- `parsePlistXmlToSmartRules` (column-layout.ts line 366). -/
def parsePlistXmlToSmartRules (xml : List Char) : List SmartRuleEntry :=
  smartRulesLoop (extractTopLevelDicts xml)

/-- The sync-UUID extraction of both enumerators, as one function. -/
def syncUuidOf (d : List Char) : Option (List Char) :=
  match extractSubDictAfterKey d "sync".toList with
  | some sc => extractStringAfterKey sc "UUID".toList
  | none => none

/-- Per-block result of the smart-group loop: `none` iff the block is
discarded. -/
def smartGroupEntryOf (d : List Char) : Option SmartGroupEntry :=
  let name := extractStringAfterKey d "name".toList
  let uuid := syncUuidOf d
  if isFalsyStr name && isFalsyStr uuid then none
  else some
    { name := name.getD "(unnamed)".toList, uuid := uuid.getD [],
      syncDate := match extractSubDictAfterKey d "sync".toList with
        | some sc => extractDateAfterKey sc "date".toList
        | none => none,
      useUuidKey := extractBoolAfterKey d "UseUUIDKey".toList }

/-- Per-block result of the smart-rule loop. -/
def smartRuleEntryOf (d : List Char) : Option SmartRuleEntry :=
  let name := extractStringAfterKey d "name".toList
  let uuid := syncUuidOf d
  if isFalsyStr name && isFalsyStr uuid then none
  else some
    { name := name.getD "(unnamed)".toList, uuid := uuid.getD [],
      enabled := extractBoolAfterKey d "Enabled".toList,
      indexOffset := extractIntegerAfterKey d "IndexOffset".toList,
      lastExecution := extractRealAfterKey d "LastExecution".toList,
      syncDate := match extractSubDictAfterKey d "sync".toList with
        | some sc => extractDateAfterKey sc "date".toList
        | none => none,
      useUuidKey := extractBoolAfterKey d "UseUUIDKey".toList }

theorem smartGroupsLoop_eq_filterMap (ds : List (List Char)) :
    smartGroupsLoop ds = ds.filterMap smartGroupEntryOf := by
  induction ds with
  | nil => rfl
  | cons d ds ih =>
    simp only [smartGroupsLoop, List.filterMap_cons, smartGroupEntryOf, syncUuidOf, ih]
    by_cases h : (isFalsyStr (extractStringAfterKey d "name".toList) &&
        isFalsyStr (match extractSubDictAfterKey d "sync".toList with
          | some sc => extractStringAfterKey sc "UUID".toList
          | none => none)) = true
    · rw [if_pos h, if_pos h]
    · rw [if_neg h, if_neg h]

theorem smartRulesLoop_eq_filterMap (ds : List (List Char)) :
    smartRulesLoop ds = ds.filterMap smartRuleEntryOf := by
  induction ds with
  | nil => rfl
  | cons d ds ih =>
    simp only [smartRulesLoop, List.filterMap_cons, smartRuleEntryOf, syncUuidOf, ih]
    by_cases h : (isFalsyStr (extractStringAfterKey d "name".toList) &&
        isFalsyStr (match extractSubDictAfterKey d "sync".toList with
          | some sc => extractStringAfterKey sc "UUID".toList
          | none => none)) = true
    · rw [if_pos h, if_pos h]
    · rw [if_neg h, if_neg h]

theorem syncUuidOf_def (d : List Char) :
    (match extractSubDictAfterKey d "sync".toList with
      | some sc => extractStringAfterKey sc "UUID".toList
      | none => none) = syncUuidOf d := rfl

/-- **C3 counterexample**: a block whose `name` and sync `UUID` are both
present but hold the empty string: both extractions succeed (return the
empty string, not null), yet the block is discarded by both enumerators —
so "discard exactly when neither an extractable name nor an extractable
uuid" fails in the present-but-empty case (JavaScript `!name && !uuid`
treats the empty string like null). -/
theorem parse_discard_counterexample :
    extractStringAfterKey
      ("<key>name</key><string></string><key>sync</key>" ++
        "<dict><key>UUID</key><string></string></dict>").toList
      "name".toList = some [] ∧
    syncUuidOf
      ("<key>name</key><string></string><key>sync</key>" ++
        "<dict><key>UUID</key><string></string></dict>").toList = some [] ∧
    parsePlistXmlToSmartGroups
      ("<dict><key>name</key><string></string><key>sync</key>" ++
        "<dict><key>UUID</key><string></string></dict></dict>").toList = [] ∧
    parsePlistXmlToSmartRules
      ("<dict><key>name</key><string></string><key>sync</key>" ++
        "<dict><key>UUID</key><string></string></dict></dict>").toList = [] := by
  refine ⟨by decide, by decide, by decide, by decide⟩

/-- **C3** (amended): both enumerators discard a top-level block exactly when
the extracted name and the extracted sync UUID are both missing-or-empty
(null or the empty string); otherwise an entry is emitted in which a `null`
name is replaced by `"(unnamed)"` and a `null` uuid by the empty string. -/
theorem parse_discard_characterization :
    (∀ xml, parsePlistXmlToSmartGroups xml =
        (extractTopLevelDicts xml).filterMap smartGroupEntryOf) ∧
    (∀ xml, parsePlistXmlToSmartRules xml =
        (extractTopLevelDicts xml).filterMap smartRuleEntryOf) ∧
    (∀ d, smartGroupEntryOf d = none ↔
        (isFalsyStr (extractStringAfterKey d "name".toList) = true ∧
         isFalsyStr (syncUuidOf d) = true)) ∧
    (∀ d, smartRuleEntryOf d = none ↔
        (isFalsyStr (extractStringAfterKey d "name".toList) = true ∧
         isFalsyStr (syncUuidOf d) = true)) ∧
    (∀ d e, smartGroupEntryOf d = some e →
        e.name = (extractStringAfterKey d "name".toList).getD "(unnamed)".toList ∧
        e.uuid = (syncUuidOf d).getD []) ∧
    (∀ d e, smartRuleEntryOf d = some e →
        e.name = (extractStringAfterKey d "name".toList).getD "(unnamed)".toList ∧
        e.uuid = (syncUuidOf d).getD []) := by
  refine ⟨fun xml => smartGroupsLoop_eq_filterMap _,
    fun xml => smartRulesLoop_eq_filterMap _, ?_, ?_, ?_, ?_⟩
  · intro d
    simp only [smartGroupEntryOf]
    by_cases h : (isFalsyStr (extractStringAfterKey d "name".toList) &&
        isFalsyStr (syncUuidOf d)) = true
    · rw [if_pos h]
      rw [Bool.and_eq_true] at h
      exact ⟨fun _ => h, fun _ => rfl⟩
    · rw [if_neg h]
      rw [Bool.and_eq_true] at h
      exact ⟨fun hc => absurd hc (by simp), fun hc => absurd hc h⟩
  · intro d
    simp only [smartRuleEntryOf]
    by_cases h : (isFalsyStr (extractStringAfterKey d "name".toList) &&
        isFalsyStr (syncUuidOf d)) = true
    · rw [if_pos h]
      rw [Bool.and_eq_true] at h
      exact ⟨fun _ => h, fun _ => rfl⟩
    · rw [if_neg h]
      rw [Bool.and_eq_true] at h
      exact ⟨fun hc => absurd hc (by simp), fun hc => absurd hc h⟩
  · intro d e
    simp only [smartGroupEntryOf]
    by_cases h : (isFalsyStr (extractStringAfterKey d "name".toList) &&
        isFalsyStr (syncUuidOf d)) = true
    · rw [if_pos h]
      intro hc
      exact absurd hc (by simp)
    · rw [if_neg h]
      intro hc
      injection hc with h2
      subst h2
      exact ⟨rfl, rfl⟩
  · intro d e
    simp only [smartRuleEntryOf]
    by_cases h : (isFalsyStr (extractStringAfterKey d "name".toList) &&
        isFalsyStr (syncUuidOf d)) = true
    · rw [if_pos h]
      intro hc
      exact absurd hc (by simp)
    · rw [if_neg h]
      intro hc
      injection hc with h2
      subst h2
      exact ⟨rfl, rfl⟩

/-- Witness for (amended) C3 on a concrete block with a name and no sync
uuid. -/
theorem parse_discard_characterization_witness :
    smartGroupEntryOf "<key>name</key><string>A</string>".toList =
      some { name := "A".toList, uuid := [], syncDate := none, useUuidKey := none } ∧
    ({ name := "A".toList, uuid := [], syncDate := none,
        useUuidKey := none : SmartGroupEntry }.name =
      (extractStringAfterKey "<key>name</key><string>A</string>".toList
        "name".toList).getD "(unnamed)".toList ∧
     { name := "A".toList, uuid := [], syncDate := none,
        useUuidKey := none : SmartGroupEntry }.uuid =
      (syncUuidOf "<key>name</key><string>A</string>".toList).getD []) :=
  ⟨by decide, parse_discard_characterization.2.2.2.2.1 _ _ (by decide)⟩

/-- **C10**: the `"(unnamed)"` sentinel and empty-string uuid defaults apply
only when the extraction returns null; a present-but-empty
`<string></string>` yields the empty string, which is preserved as-is in the
emitted entry, and a block where both name and uuid are present-but-empty is
discarded exactly like a block where both are absent. -/
theorem emptyString_fields_preserved :
    (∀ d, extractStringAfterKey d "name".toList = some [] →
      isFalsyStr (syncUuidOf d) = false →
      (smartGroupsLoop [d]).map SmartGroupEntry.name = [[]]) ∧
    (∀ d, isFalsyStr (extractStringAfterKey d "name".toList) = false →
      syncUuidOf d = some [] →
      (smartGroupsLoop [d]).map SmartGroupEntry.uuid = [[]]) ∧
    (∀ d, extractStringAfterKey d "name".toList = some [] →
      syncUuidOf d = some [] → smartGroupsLoop [d] = []) ∧
    (∀ d, extractStringAfterKey d "name".toList = none →
      syncUuidOf d = none → smartGroupsLoop [d] = []) ∧
    (∀ d, extractStringAfterKey d "name".toList = none →
      isFalsyStr (syncUuidOf d) = false →
      (smartGroupsLoop [d]).map SmartGroupEntry.name = ["(unnamed)".toList]) := by
  refine ⟨?_, ?_, ?_, ?_, ?_⟩
  · intro d h1 h2
    simp only [smartGroupsLoop, syncUuidOf_def]
    rw [h1, h2]
    simp [isFalsyStr]
  · intro d h1 h2
    simp only [smartGroupsLoop, syncUuidOf_def]
    rw [h1, h2]
    simp [isFalsyStr]
  · intro d h1 h2
    simp only [smartGroupsLoop, syncUuidOf_def]
    rw [h1, h2]
    simp [isFalsyStr]
  · intro d h1 h2
    simp only [smartGroupsLoop, syncUuidOf_def]
    rw [h1, h2]
    simp [isFalsyStr]
  · intro d h1 h2
    simp only [smartGroupsLoop, syncUuidOf_def]
    rw [h1, h2]
    simp [isFalsyStr]

/-- Witness for C10: a block with `<string></string>` name and a non-empty
uuid keeps the entry with the empty name preserved. -/
theorem emptyString_fields_preserved_witness :
    extractStringAfterKey
      ("<key>name</key><string></string><key>sync</key>" ++
        "<dict><key>UUID</key><string>U</string></dict>").toList
      "name".toList = some [] ∧
    isFalsyStr (syncUuidOf
      ("<key>name</key><string></string><key>sync</key>" ++
        "<dict><key>UUID</key><string>U</string></dict>").toList) = false ∧
    (smartGroupsLoop [("<key>name</key><string></string><key>sync</key>" ++
        "<dict><key>UUID</key><string>U</string></dict>").toList]).map
      SmartGroupEntry.name = [[]] :=
  ⟨by decide, by decide,
    emptyString_fields_preserved.1 _ (by decide) (by decide)⟩

/-!
## Sorting of the enumerator output
(list-smart-groups.ts line 99, column-layout.ts line 428:
`entries.sort((a, b) => a.name.localeCompare(b.name))`)

`Array.prototype.sort` in V8 is a stable sort, embedded as `List.mergeSort`.
`localeCompare`'s collation tables are environment data (ICU), so the
comparator is a parameter; `localeCompare` is a consistent comparator
(a total preorder), which is the hypothesis of the theorem below.
-/

def listSmartGroupsSorted (cmp : List Char → List Char → Int) (xml : List Char) :
    List SmartGroupEntry :=
  (parsePlistXmlToSmartGroups xml).mergeSort
    (fun a b => decide (cmp a.name b.name ≤ 0))

def listSmartRulesSorted (cmp : List Char → List Char → Int) (xml : List Char) :
    List SmartRuleEntry :=
  (parsePlistXmlToSmartRules xml).mergeSort
    (fun a b => decide (cmp a.name b.name ≤ 0))

/-- **C7**: for any consistent comparator (such as `localeCompare`), the
enumerator's returned list is sorted ascending by `name` under the
comparator and is a permutation of the parsed entries: every parsed entry —
in particular each of two entries sharing the same name but different uuid —
appears in the result with its exact multiplicity (name is not a uniqueness
key). -/
theorem listSorted_spec (cmp : List Char → List Char → Int)
    (htrans : ∀ a b c : List Char, cmp a b ≤ 0 → cmp b c ≤ 0 → cmp a c ≤ 0)
    (htotal : ∀ a b : List Char, cmp a b ≤ 0 ∨ cmp b a ≤ 0) (xml : List Char) :
    List.Pairwise (fun a b => cmp a.name b.name ≤ 0) (listSmartGroupsSorted cmp xml) ∧
    (listSmartGroupsSorted cmp xml).Perm (parsePlistXmlToSmartGroups xml) ∧
    (∀ e, (listSmartGroupsSorted cmp xml).count e =
      (parsePlistXmlToSmartGroups xml).count e) ∧
    (∀ e, e ∈ parsePlistXmlToSmartGroups xml → e ∈ listSmartGroupsSorted cmp xml) ∧
    List.Pairwise (fun a b => cmp a.name b.name ≤ 0) (listSmartRulesSorted cmp xml) ∧
    (listSmartRulesSorted cmp xml).Perm (parsePlistXmlToSmartRules xml) ∧
    (∀ e, e ∈ parsePlistXmlToSmartRules xml → e ∈ listSmartRulesSorted cmp xml) := by
  have hgPerm : (listSmartGroupsSorted cmp xml).Perm (parsePlistXmlToSmartGroups xml) :=
    List.mergeSort_perm _ _
  have hrPerm : (listSmartRulesSorted cmp xml).Perm (parsePlistXmlToSmartRules xml) :=
    List.mergeSort_perm _ _
  refine ⟨?_, hgPerm, fun e => hgPerm.count_eq e, fun e he => hgPerm.mem_iff.mpr he,
    ?_, hrPerm, fun e he => hrPerm.mem_iff.mpr he⟩
  · have hs := @List.sorted_mergeSort SmartGroupEntry
      (fun a b : SmartGroupEntry => decide (cmp a.name b.name ≤ 0))
      (fun a b c hab hbc =>
        decide_eq_true (htrans a.name b.name c.name
          (of_decide_eq_true hab) (of_decide_eq_true hbc)))
      (fun a b => by
        rcases htotal a.name b.name with h | h <;>
          simp [decide_eq_true h])
      (parsePlistXmlToSmartGroups xml)
    exact hs.imp fun h => of_decide_eq_true h
  · have hs := @List.sorted_mergeSort SmartRuleEntry
      (fun a b : SmartRuleEntry => decide (cmp a.name b.name ≤ 0))
      (fun a b c hab hbc =>
        decide_eq_true (htrans a.name b.name c.name
          (of_decide_eq_true hab) (of_decide_eq_true hbc)))
      (fun a b => by
        rcases htotal a.name b.name with h | h <;>
          simp [decide_eq_true h])
      (parsePlistXmlToSmartRules xml)
    exact hs.imp fun h => of_decide_eq_true h

/-- A concrete consistent comparator: code-point lexicographic order. -/
def cmpLex (a b : List Char) : Int :=
  if a < b then -1 else if b < a then 1 else 0

theorem cmpLex_le_iff (a b : List Char) : cmpLex a b ≤ 0 ↔ a ≤ b := by
  unfold cmpLex
  rcases lt_trichotomy a b with h | h | h
  · simp [h, le_of_lt h]
  · simp [h]
  · rw [if_neg (by exact not_lt_of_gt h), if_pos h]
    constructor
    · intro hc
      omega
    · intro hc
      exact absurd hc (not_le_of_lt h)

theorem cmpLex_trans (a b c : List Char) :
    cmpLex a b ≤ 0 → cmpLex b c ≤ 0 → cmpLex a c ≤ 0 := by
  rw [cmpLex_le_iff, cmpLex_le_iff, cmpLex_le_iff]
  exact le_trans

theorem cmpLex_total (a b : List Char) : cmpLex a b ≤ 0 ∨ cmpLex b a ≤ 0 := by
  rw [cmpLex_le_iff, cmpLex_le_iff]
  exact le_total a b

set_option maxRecDepth 16384 in
/-- Witness for C7 on a document with two entries sharing the name `"A"` but
with different uuids: both are parsed, and the sorted output is a
permutation preserving both. -/
theorem listSorted_spec_witness :
    (parsePlistXmlToSmartGroups
      ("<dict><key>name</key><string>A</string><key>sync</key>" ++
        "<dict><key>UUID</key><string>U1</string></dict></dict>" ++
       "<dict><key>name</key><string>A</string><key>sync</key>" ++
        "<dict><key>UUID</key><string>U2</string></dict></dict>").toList).map
      SmartGroupEntry.uuid = ["U1".toList, "U2".toList] ∧
    (List.Pairwise (fun a b => cmpLex a.name b.name ≤ 0)
      (listSmartGroupsSorted cmpLex
        ("<dict><key>name</key><string>A</string><key>sync</key>" ++
          "<dict><key>UUID</key><string>U1</string></dict></dict>" ++
         "<dict><key>name</key><string>A</string><key>sync</key>" ++
          "<dict><key>UUID</key><string>U2</string></dict></dict>").toList) ∧
     (listSmartGroupsSorted cmpLex
        ("<dict><key>name</key><string>A</string><key>sync</key>" ++
          "<dict><key>UUID</key><string>U1</string></dict></dict>" ++
         "<dict><key>name</key><string>A</string><key>sync</key>" ++
          "<dict><key>UUID</key><string>U2</string></dict></dict>").toList).Perm
      (parsePlistXmlToSmartGroups
        ("<dict><key>name</key><string>A</string><key>sync</key>" ++
          "<dict><key>UUID</key><string>U1</string></dict></dict>" ++
         "<dict><key>name</key><string>A</string><key>sync</key>" ++
          "<dict><key>UUID</key><string>U2</string></dict></dict>").toList)) :=
  ⟨by decide, ((listSorted_spec cmpLex cmpLex_trans cmpLex_total _).1),
    ((listSorted_spec cmpLex cmpLex_trans cmpLex_total _).2.1)⟩

/-!
## E-mail header parsing (src/tools/custom/parse-eml-headers.ts)

The file reading (first 65536 bytes) is I/O; the pure core below starts from
the decoded `rawContent` string (lines 133-165) and the helper functions of
lines 25-101.
-/

/-- Header/body boundary (parse-eml-headers.ts lines 133-143): the prefix up
to the first `"\r\n\r\n"` or `"\n\n"`, whichever comes first; the whole
buffer when neither occurs. -/
def headerSectionOf (raw : List Char) : List Char :=
  match findFrom "\r\n\r\n".toList raw 0, findFrom "\n\n".toList raw 0 with
  | some crlf, none => raw.take crlf
  | some crlf, some lf => if crlf < lf then raw.take crlf else raw.take lf
  | none, some lf => raw.take lf
  | none, none => raw

/-- `headerSection.replace(/\r\n/g, "\n")` (line 57): each `"\r\n"` pair
becomes `"\n"`; a lone `'\r'` is kept. -/
def stripCR : List Char → List Char
  | [] => []
  | [c] => [c]
  | c1 :: c2 :: rest =>
    if c1 = '\r' ∧ c2 = '\n' then '\n' :: stripCR rest
    else c1 :: stripCR (c2 :: rest)

/-- `normalised.split("\n")` (line 58). -/
def splitNl : List Char → List (List Char)
  | [] => [[]]
  | c :: rest =>
    if c = '\n' then [] :: splitNl rest
    else
      match splitNl rest with
      | [] => [[c]]
      | l :: ls => (c :: l) :: ls

def isWsTab (c : Char) : Bool := c = ' ' || c = '\t'

/-- Fuel-based body of `unfoldValue` (`value.replace(/\n[ \t]+/g, " ")`,
line 65): each step consumes at least one character, so `s.length` fuel
suffices. -/
def unfoldAux : Nat → List Char → List Char
  | 0, s => s
  | _ + 1, [] => []
  | fuel + 1, c :: rest =>
    if c = '\n' then
      if (rest.takeWhile isWsTab).isEmpty then '\n' :: unfoldAux fuel rest
      else ' ' :: unfoldAux fuel (rest.dropWhile isWsTab)
    else c :: unfoldAux fuel rest

/-- RFC 2822 unfolding: replace every `"\n"` followed by a maximal nonempty
run of spaces/tabs by a single space. -/
def unfoldValue (s : List Char) : List Char := unfoldAux s.length s

def toLowerStr (s : List Char) : List Char := s.map Char.toLower

/-- JavaScript `Map` as an insertion-ordered association list:
`set` updates in place, else appends. -/
def mapSet (m : List (List Char × List Char)) (k v : List Char) :
    List (List Char × List Char) :=
  match m with
  | [] => [(k, v)]
  | (k', v') :: rest => if k' = k then (k', v) :: rest else (k', v') :: mapSet rest k v

def mapGet (m : List (List Char × List Char)) (k : List Char) : Option (List Char) :=
  match m with
  | [] => none
  | (k', v') :: rest => if k' = k then some v' else mapGet rest k

/-- The `flush` closure of `parseHeaders` (lines 63-73): unfold and trim the
accumulated value, lowercase the name, newline-join with any previous value
stored under the same lowercased name. -/
def flushHeader (m : List (List Char × List Char)) (cn : Option (List Char))
    (cv : List Char) : List (List Char × List Char) :=
  match cn with
  | none => m
  | some nm =>
    let unfolded := trimJS (unfoldValue cv)
    let key := toLowerStr nm
    match mapGet m key with
    | some old => mapSet m key (old ++ '\n' :: unfolded)
    | none => mapSet m key unfolded

/-- The line loop of `parseHeaders` (lines 75-93): a continuation line (lead
space/tab) extends the current value; an empty line stops the loop; a line
with a colon at a positive index starts a new header; any other line resets
the current header.  The final `flush()` (line 93) is applied on every exit
path. -/
def headerLoop (m : List (List Char × List Char)) (cn : Option (List Char))
    (cv : List Char) : List (List Char) → List (List Char × List Char)
  | [] => flushHeader m cn cv
  | line :: rest =>
    if line.isEmpty then flushHeader m cn cv
    else if isWsTab (line.headD ' ') then
      match cn with
      | some _ => headerLoop m cn (cv ++ '\n' :: line) rest
      | none => headerLoop m cn cv rest
    else
      let m' := flushHeader m cn cv
      match findFrom [':'] line 0 with
      | some colonIdx =>
        if 0 < colonIdx then
          headerLoop m' (some (trimJS (line.take colonIdx)))
            (line.drop (colonIdx + 1)) rest
        else headerLoop m' none [] rest
      | none => headerLoop m' none [] rest

/-- `parseHeaders` (parse-eml-headers.ts line 55). -/
def parseHeaders (headerSection : List Char) : List (List Char × List Char) :=
  headerLoop [] none [] (splitNl (stripCR headerSection))

/-- Fuel-based body of `parseReferences` (`raw.match(/<[^>]+>/g)`, line 98). -/
def parseRefsAux : Nat → List Char → List (List Char)
  | 0, _ => []
  | _ + 1, [] => []
  | fuel + 1, c :: rest =>
    if c = '<' then
      let run := rest.takeWhile (fun d => d ≠ '>')
      if run.isEmpty then parseRefsAux fuel rest
      else
        match rest.drop run.length with
        | '>' :: rest2 => ('<' :: (run ++ ['>'])) :: parseRefsAux fuel rest2
        | _ => parseRefsAux fuel rest
    else parseRefsAux fuel rest

/-- `parseReferences`: every angle-bracketed `<...>` span, in order. -/
def parseReferences (raw : List Char) : List (List Char) :=
  parseRefsAux raw.length raw

/-!
### RFC 2047 encoded words (lines 25-53)
-/

/-- Base64 alphabet value of a character. -/
def b64Val (c : Char) : Option Nat :=
  if 'A' ≤ c ∧ c ≤ 'Z' then some (c.toNat - 65)
  else if 'a' ≤ c ∧ c ≤ 'z' then some (c.toNat - 97 + 26)
  else if '0' ≤ c ∧ c ≤ '9' then some (c.toNat - 48 + 52)
  else if c = '+' then some 62
  else if c = '/' then some 63
  else none

/-- Regroup 6-bit values into bytes (a trailing single value is dropped). -/
def b64Chunks : List Nat → List Nat
  | a :: b :: c :: d :: rest =>
    (a * 4 + b / 16) :: ((b % 16) * 16 + c / 4) :: ((c % 4) * 64 + d) :: b64Chunks rest
  | [a, b] => [a * 4 + b / 16]
  | [a, b, c] => [a * 4 + b / 16, (b % 16) * 16 + c / 4]
  | _ => []

/-- `Buffer.from(text, "base64")`: Node's lenient decoder — data stops at the
first `'='`, characters outside the alphabet are ignored. -/
def base64Decode (txt : List Char) : List Nat :=
  b64Chunks ((txt.takeWhile (fun c => c ≠ '=')).filterMap b64Val)

/-- Hex digit value. -/
def hexVal (c : Char) : Option Nat :=
  if '0' ≤ c ∧ c ≤ '9' then some (c.toNat - 48)
  else if 'A' ≤ c ∧ c ≤ 'F' then some (c.toNat - 65 + 10)
  else if 'a' ≤ c ∧ c ≤ 'f' then some (c.toNat - 97 + 10)
  else none

/-- The Q-decoding of lines 35-39: `_` becomes a space and `=HH` becomes the
character with code `0xHH`.  (The source performs the two global replaces in
sequence; as `_ → space` cannot create or destroy an `=HH` pattern, the
single pass is equivalent.) -/
def qDecode : List Char → List Char
  | [] => []
  | '_' :: rest => ' ' :: qDecode rest
  | '=' :: h1 :: h2 :: rest =>
    match hexVal h1, hexVal h2 with
    | some a, some b => Char.ofNat (a * 16 + b) :: qDecode rest
    | _, _ => '=' :: qDecode (h1 :: h2 :: rest)
  | c :: rest => c :: qDecode rest

/-- Fuel-based body of `utf8Decode`; each step consumes at least one byte. -/
def utf8DecodeAux : Nat → List Nat → List Char
  | 0, _ => []
  | _ + 1, [] => []
  | fuel + 1, b :: rest =>
    if b < 0x80 then Char.ofNat b :: utf8DecodeAux fuel rest
    else if b < 0xC2 then '�' :: utf8DecodeAux fuel rest
    else if b < 0xE0 then
      match rest with
      | b2 :: rest2 =>
        if 0x80 ≤ b2 ∧ b2 < 0xC0 then
          Char.ofNat ((b - 0xC0) * 64 + (b2 - 0x80)) :: utf8DecodeAux fuel rest2
        else '�' :: utf8DecodeAux fuel rest
      | [] => ['�']
    else if b < 0xF0 then
      match rest with
      | b2 :: b3 :: rest3 =>
        if (0x80 ≤ b2 ∧ b2 < 0xC0) ∧ (0x80 ≤ b3 ∧ b3 < 0xC0) ∧
            (let code := (b - 0xE0) * 4096 + (b2 - 0x80) * 64 + (b3 - 0x80)
             0x800 ≤ code ∧ (code < 0xD800 ∨ 0xE000 ≤ code)) then
          Char.ofNat ((b - 0xE0) * 4096 + (b2 - 0x80) * 64 + (b3 - 0x80)) ::
            utf8DecodeAux fuel rest3
        else '�' :: utf8DecodeAux fuel rest
      | _ => ['�']
    else if b < 0xF5 then
      match rest with
      | b2 :: b3 :: b4 :: rest4 =>
        if (0x80 ≤ b2 ∧ b2 < 0xC0) ∧ (0x80 ≤ b3 ∧ b3 < 0xC0) ∧
            (0x80 ≤ b4 ∧ b4 < 0xC0) ∧
            (let code := (b - 0xF0) * 262144 + (b2 - 0x80) * 4096 +
              (b3 - 0x80) * 64 + (b4 - 0x80)
             0x10000 ≤ code ∧ code ≤ 0x10FFFF) then
          Char.ofNat ((b - 0xF0) * 262144 + (b2 - 0x80) * 4096 +
            (b3 - 0x80) * 64 + (b4 - 0x80)) :: utf8DecodeAux fuel rest4
        else '�' :: utf8DecodeAux fuel rest
      | _ => ['�']
    else '�' :: utf8DecodeAux fuel rest

/-- UTF-8 decoding of a byte list, with U+FFFD for malformed input.
(Node emits one U+FFFD per maximal invalid subpart; this model emits one per
invalid lead byte — identical on all well-formed input, which is all any
claim exercises.) -/
def utf8Decode (bytes : List Nat) : List Char := utf8DecodeAux bytes.length bytes

/-- `buffer.toString(encoding)` for the encodings reachable through the
charset normalization of lines 42-46; an unsupported encoding name throws in
Node (`none` here), which the source's `catch` turns into the fallback.
(The other Node encodings — utf16le, hex, base64 — never name MIME charsets
and are not modelled.) -/
def decodeBuffer (enc : List Char) (bytes : List Nat) : Option (List Char) :=
  if enc = "utf-8".toList ∨ enc = "utf8".toList then some (utf8Decode bytes)
  else if enc = "latin1".toList ∨ enc = "binary".toList then
    some (bytes.map (fun b => Char.ofNat (b % 256)))
  else if enc = "ascii".toList then
    some (bytes.map (fun b => Char.ofNat (b % 128)))
  else none

/-- The encoded word `=?cs?e?txt?=` as a string. -/
def encodedWord (cs : List Char) (e : Char) (txt : List Char) : List Char :=
  '=' :: '?' :: (cs ++ '?' :: e :: '?' :: (txt ++ ['?', '=']))

/-- The `try` block of the replacement callback (lines 29-47): decode the
bytes per the `B`/`Q` encoding and interpret them under the normalized
charset; `none` is the `catch` path. -/
def tryDecodeWord (cs : List Char) (e : Char) (txt : List Char) :
    Option (List Char) :=
  let bytes := if e.toUpper = 'B' then base64Decode txt
    else (qDecode txt).map (fun c => c.toNat % 256)
  let csLower := toLowerStr cs
  let csNorm := if csLower = "us-ascii".toList then "ascii".toList
    else if csLower = "iso-8859-1".toList ∨ csLower = "iso-8859-15".toList then
      "latin1".toList
    else if csLower.isEmpty then "utf-8".toList else csLower
  decodeBuffer csNorm bytes

/-- The whole replacement callback: decoded text, or the original matched
substring when decoding fails (line 49). -/
def decodeWordOrOriginal (cs : List Char) (e : Char) (txt : List Char) :
    List Char :=
  match tryDecodeWord cs e txt with
  | some d => d
  | none => encodedWord cs e txt

/-- Match `=\?([^?]+)\?([BbQq])\?([^?]*)\?=` at the head of `s`, returning
the three groups and the remainder. -/
def matchEncodedWord (s : List Char) :
    Option (List Char × Char × List Char × List Char) :=
  match matchLit "=?".toList s with
  | none => none
  | some r1 =>
    if (r1.takeWhile (fun c => c ≠ '?')).isEmpty then none
    else
      match r1.drop (r1.takeWhile (fun c => c ≠ '?')).length with
      | '?' :: e :: '?' :: r3 =>
        if e = 'B' ∨ e = 'b' ∨ e = 'Q' ∨ e = 'q' then
          match r3.drop (r3.takeWhile (fun c => c ≠ '?')).length with
          | '?' :: '=' :: rest2 =>
            some (r1.takeWhile (fun c => c ≠ '?'), e,
              r3.takeWhile (fun c => c ≠ '?'), rest2)
          | _ => none
        else none
      | _ => none

/-- Fuel-based body of `decodeEncodedWords` (lines 25-53): the global regex
replace scans left to right; every encoded word starts with `'='`, so only
those positions can start a match.  Each step consumes at least one
character. -/
def decodeEWAux : Nat → List Char → List Char
  | 0, s => s
  | _ + 1, [] => []
  | fuel + 1, c :: rest =>
    if c = '=' then
      match matchEncodedWord (c :: rest) with
      | some (cs, e, txt, rest2) =>
        decodeWordOrOriginal cs e txt ++ decodeEWAux fuel rest2
      | none => c :: decodeEWAux fuel rest
    else c :: decodeEWAux fuel rest

/-- `decodeEncodedWords` (parse-eml-headers.ts line 25). -/
def decodeEncodedWords (s : List Char) : List Char := decodeEWAux s.length s

/-- The `get` closure of `parseEmlHeaders` (lines 147-150). -/
def getHeader (m : List (List Char × List Char)) (name : List Char) :
    Option (List Char) :=
  match mapGet m name with
  | some v => some (decodeEncodedWords (trimJS v))
  | none => none

structure EmlHeadersResult where
  success : Bool
  messageId : Option (List Char)
  inReplyTo : Option (List Char)
  references : List (List Char)
  subject : Option (List Char)
  fromField : Option (List Char)
  toField : Option (List Char)
  cc : Option (List Char)
  date : Option (List Char)
deriving DecidableEq

/-- The pure tail of `parseEmlHeaders` (lines 133-165), starting from the
decoded read buffer (`from` and `to` collide with Lean syntax, hence the
fields `fromField` and `toField`). -/
def parseEmlFromContent (rawContent : List Char) : EmlHeadersResult :=
  let headers := parseHeaders (headerSectionOf rawContent)
  let referencesRaw := getHeader headers "references".toList
  { success := true,
    messageId := getHeader headers "message-id".toList,
    inReplyTo := getHeader headers "in-reply-to".toList,
    references := match referencesRaw with
      | some r => parseReferences r
      | none => [],
    subject := getHeader headers "subject".toList,
    fromField := getHeader headers "from".toList,
    toField := getHeader headers "to".toList,
    cc := getHeader headers "cc".toList,
    date := getHeader headers "date".toList }

/-- The two separators cannot occur at the same index (`'\r'` vs `'\n'`). -/
theorem sep_ne_same {raw : List Char} {k : Nat}
    (h1 : occAt "\r\n\r\n".toList raw k) (h2 : occAt "\n\n".toList raw k) :
    False := by
  have e1 := occAt_getElem h1 (k := 0) (by decide)
  have e2 := occAt_getElem h2 (k := 0) (by decide)
  rw [e1] at e2
  exact absurd e2 (by decide)

/-- **C4**: the e-mail parser's header section is the prefix ending at the
first occurrence of CRLF-CRLF or LF-LF, whichever occurs first; when neither
occurs the entire buffer is the header section, and the parser still returns
a success result (the pure pipeline always produces `success = true`; it
cannot throw). -/
theorem parseEml_boundary (raw : List Char) :
    (parseEmlFromContent raw).success = true ∧
    ((∀ i, ¬ occAt "\r\n\r\n".toList raw i ∧ ¬ occAt "\n\n".toList raw i) →
      headerSectionOf raw = raw) ∧
    (∀ i, (occAt "\r\n\r\n".toList raw i ∨ occAt "\n\n".toList raw i) →
      (∀ j, j < i → ¬ occAt "\r\n\r\n".toList raw j ∧ ¬ occAt "\n\n".toList raw j) →
      headerSectionOf raw = raw.take i) := by
  refine ⟨rfl, ?_, ?_⟩
  · intro h
    rw [headerSectionOf,
      findFrom_eq_none_of (fun j _ => (h j).1),
      findFrom_eq_none_of (fun j _ => (h j).2)]
  · intro i hocc hmin
    rcases hocc with hc | hl
    · have hfc : findFrom "\r\n\r\n".toList raw 0 = some i :=
        findFrom_eq_some_of (by decide) hc (Nat.zero_le _)
          (fun j _ hji => (hmin j hji).1)
      cases hfl : findFrom "\n\n".toList raw 0 with
      | none => rw [headerSectionOf, hfc, hfl]
      | some l =>
        obtain ⟨_, hocc_l, _, _⟩ := findFrom_some hfl
        have hil : i < l := by
          rcases Nat.lt_trichotomy l i with h | h | h
          · exact absurd hocc_l (hmin l h).2
          · subst h
            exact absurd hocc_l (fun hh => sep_ne_same hc hh)
          · exact h
        rw [headerSectionOf, hfc, hfl]
        show (if i < l then raw.take i else raw.take l) = raw.take i
        rw [if_pos hil]
    · have hfl : findFrom "\n\n".toList raw 0 = some i :=
        findFrom_eq_some_of (by decide) hl (Nat.zero_le _)
          (fun j _ hji => (hmin j hji).2)
      cases hfc : findFrom "\r\n\r\n".toList raw 0 with
      | none => rw [headerSectionOf, hfc, hfl]
      | some c =>
        obtain ⟨_, hocc_c, _, _⟩ := findFrom_some hfc
        have hic : i < c := by
          rcases Nat.lt_trichotomy c i with h | h | h
          · exact absurd hocc_c (hmin c h).1
          · subst h
            exact absurd hocc_c (fun hh => sep_ne_same hh hl)
          · exact h
        rw [headerSectionOf, hfc, hfl]
        show (if c < i then raw.take c else raw.take i) = raw.take i
        rw [if_neg (by omega)]

/-- Witness for C4: `"a: b\n\nbody"` has its first separator at index 4, so
the header section is `"a: b"`, and the result is a success. -/
theorem parseEml_boundary_witness :
    (parseEmlFromContent "a: b\n\nbody".toList).success = true ∧
    (occAt "\r\n\r\n".toList "a: b\n\nbody".toList 4 ∨
      occAt "\n\n".toList "a: b\n\nbody".toList 4) ∧
    headerSectionOf "a: b\n\nbody".toList = ("a: b\n\nbody".toList).take 4 :=
  ⟨(parseEml_boundary _).1, by decide,
    (parseEml_boundary _).2.2 4 (by decide) (by decide)⟩

/-!
### Case-insensitive header names (C9)
-/

theorem stripCR_id {s : List Char} (h : '\r' ∉ s) : stripCR s = s := by
  induction s with
  | nil => rfl
  | cons c rest ih =>
    have hc : c ≠ '\r' := fun hh => h (hh ▸ List.mem_cons_self c rest)
    have hr : '\r' ∉ rest := fun hh => h (List.mem_cons_of_mem c hh)
    cases rest with
    | nil => rfl
    | cons c2 rest2 =>
      rw [stripCR, if_neg (fun hh => hc hh.1), ih hr]

theorem splitNl_nosep {a : List Char} (h : '\n' ∉ a) : splitNl a = [a] := by
  induction a with
  | nil => rfl
  | cons c rest ih =>
    have hc : c ≠ '\n' := fun hh => h (hh ▸ List.mem_cons_self c rest)
    have hr : '\n' ∉ rest := fun hh => h (List.mem_cons_of_mem c hh)
    rw [splitNl, if_neg hc, ih hr]

theorem splitNl_append {a : List Char} (b : List Char) (h : '\n' ∉ a) :
    splitNl (a ++ '\n' :: b) = a :: splitNl b := by
  induction a with
  | nil =>
    rw [List.nil_append, splitNl, if_pos rfl]
  | cons c rest ih =>
    have hc : c ≠ '\n' := fun hh => h (hh ▸ List.mem_cons_self c rest)
    have hr : '\n' ∉ rest := fun hh => h (List.mem_cons_of_mem c hh)
    rw [List.cons_append, splitNl, if_neg hc, ih hr]

theorem unfoldValue_id {v : List Char} (h : '\n' ∉ v) : unfoldValue v = v := by
  induction v with
  | nil => rfl
  | cons c rest ih =>
    have hc : c ≠ '\n' := fun hh => h (hh ▸ List.mem_cons_self c rest)
    have hr : '\n' ∉ rest := fun hh => h (List.mem_cons_of_mem c hh)
    show unfoldAux (c :: rest).length (c :: rest) = c :: rest
    rw [List.length_cons, unfoldAux, if_neg hc]
    exact congrArg (c :: ·) (ih hr)

theorem colon_findFrom {n : List Char} (v : List Char) (h : ':' ∉ n) :
    findFrom [':'] (n ++ ':' :: v) 0 = some n.length := by
  apply findFrom_eq_some_of (by decide)
  · show List.IsPrefix [':'] ((n ++ ':' :: v).drop n.length)
    rw [List.drop_left]
    exact ⟨v, rfl⟩
  · exact Nat.zero_le _
  · intro j _ hj hocc
    have e := occAt_getElem hocc (k := 0) (by decide)
    rw [Nat.add_zero, List.getElem?_append_left hj] at e
    exact h (List.getElem?_mem e)

/-- One-step unfolding of `headerLoop` on a non-empty line list. -/
theorem headerLoop_cons (m : List (List Char × List Char))
    (cn : Option (List Char)) (cv line : List Char)
    (rest : List (List Char)) :
    headerLoop m cn cv (line :: rest) =
      if line.isEmpty then flushHeader m cn cv
      else if isWsTab (line.headD ' ') then
        match cn with
        | some _ => headerLoop m cn (cv ++ '\n' :: line) rest
        | none => headerLoop m cn cv rest
      else
        match findFrom [':'] line 0 with
        | some colonIdx =>
          if 0 < colonIdx then
            headerLoop (flushHeader m cn cv) (some (trimJS (line.take colonIdx)))
              (line.drop (colonIdx + 1)) rest
          else headerLoop (flushHeader m cn cv) none [] rest
        | none => headerLoop (flushHeader m cn cv) none [] rest := rfl

/-- Processing one well-formed `name: value` line: flush the pending header
and make `name`/`value` current. -/
theorem headerLoop_line (m : List (List Char × List Char))
    (cn : Option (List Char)) (cv : List Char) {n : List Char}
    (v : List Char) (rest : List (List Char))
    (hne : n ≠ []) (hws : isWsTab (n.headD ' ') = false) (hcol : ':' ∉ n)
    (htrim : trimJS n = n) :
    headerLoop m cn cv ((n ++ ':' :: v) :: rest) =
      headerLoop (flushHeader m cn cv) (some n) v rest := by
  obtain ⟨c, n', rfl⟩ := List.exists_cons_of_ne_nil hne
  rw [headerLoop_cons]
  rw [if_neg (by simp)]
  rw [List.headD_cons] at hws
  rw [show ((c :: n' ++ ':' :: v).headD ' ') = c from rfl, hws]
  rw [if_neg (by simp)]
  rw [colon_findFrom v hcol]
  show (if 0 < (c :: n').length then
      headerLoop (flushHeader m cn cv)
        (some (trimJS ((c :: n' ++ ':' :: v).take (c :: n').length)))
        ((c :: n' ++ ':' :: v).drop ((c :: n').length + 1)) rest
    else headerLoop (flushHeader m cn cv) none [] rest) = _
  rw [if_pos (by simp)]
  rw [show (c :: n' ++ ':' :: v).take (c :: n').length = c :: n' from
    List.take_left _ _]
  rw [htrim]
  rw [show (c :: n' ++ ':' :: v).drop ((c :: n').length + 1) = v from by
    rw [List.drop_append]
    rfl]

theorem headerLoop_nil (m : List (List Char × List Char))
    (cn : Option (List Char)) (cv : List Char) :
    headerLoop m cn cv [] = flushHeader m cn cv := rfl

theorem not_mem_append2 {c : Char} {a b : List Char} (ha : c ∉ a) (hb : c ∉ b) :
    c ∉ a ++ b :=
  fun h => (List.mem_append.mp h).elim (fun h1 => ha h1) (fun h1 => hb h1)

theorem not_mem_cons2 {c d : Char} {b : List Char} (hcd : c ≠ d) (hb : c ∉ b) :
    c ∉ d :: b :=
  fun h => (List.mem_cons.mp h).elim hcd (fun h1 => hb h1)

/-- **C9** (implicit): header names are lowercased before storage, so two
occurrences of the same name differing only in case are merged into a
single entry whose values are newline-joined in encounter order, and the
returned fields match a header written in any letter case. -/
theorem parseHeaders_caseInsensitive :
    (∀ n1 v1 n2 v2 : List Char,
      n1 ≠ [] → isWsTab (n1.headD ' ') = false → ':' ∉ n1 → '\n' ∉ n1 →
      '\r' ∉ n1 → trimJS n1 = n1 →
      n2 ≠ [] → isWsTab (n2.headD ' ') = false → ':' ∉ n2 → '\n' ∉ n2 →
      '\r' ∉ n2 → trimJS n2 = n2 →
      '\n' ∉ v1 → '\r' ∉ v1 → '\n' ∉ v2 → '\r' ∉ v2 →
      toLowerStr n1 = toLowerStr n2 →
      parseHeaders (n1 ++ ':' :: v1 ++ '\n' :: (n2 ++ ':' :: v2)) =
        [(toLowerStr n1, trimJS v1 ++ '\n' :: trimJS v2)]) ∧
    (∀ n v : List Char,
      n ≠ [] → isWsTab (n.headD ' ') = false → ':' ∉ n → '\n' ∉ n →
      '\r' ∉ n → trimJS n = n → '\n' ∉ v → '\r' ∉ v → trimJS v = v →
      toLowerStr n = "subject".toList →
      (parseEmlFromContent (n ++ ':' :: v)).subject =
        some (decodeEncodedWords v)) := by
  constructor
  · intro n1 v1 n2 v2 h1ne h1ws h1col h1nl h1cr h1tr h2ne h2ws h2col h2nl
      h2cr h2tr hv1nl hv1cr hv2nl hv2cr hcase
    have hA : '\r' ∉ n1 ++ ':' :: v1 ++ '\n' :: (n2 ++ ':' :: v2) :=
      not_mem_append2 (not_mem_append2 h1cr (not_mem_cons2 (by decide) hv1cr))
        (not_mem_cons2 (by decide)
          (not_mem_append2 h2cr (not_mem_cons2 (by decide) hv2cr)))
    have hB : '\n' ∉ n1 ++ ':' :: v1 :=
      not_mem_append2 h1nl (not_mem_cons2 (by decide) hv1nl)
    have hC : '\n' ∉ n2 ++ ':' :: v2 :=
      not_mem_append2 h2nl (not_mem_cons2 (by decide) hv2nl)
    rw [parseHeaders]
    rw [stripCR_id hA]
    rw [show n1 ++ ':' :: v1 ++ '\n' :: (n2 ++ ':' :: v2) =
        (n1 ++ ':' :: v1) ++ '\n' :: (n2 ++ ':' :: v2) from by
      simp only [List.append_assoc, List.cons_append]]
    rw [splitNl_append _ hB]
    rw [splitNl_nosep hC]
    rw [headerLoop_line _ _ _ _ _ h1ne h1ws h1col h1tr]
    rw [headerLoop_line _ _ _ _ _ h2ne h2ws h2col h2tr]
    rw [show flushHeader (flushHeader [] none []) (some n1) v1 =
        [(toLowerStr n1, trimJS v1)] from by
      rw [show flushHeader [] none [] = [] from rfl, flushHeader]
      rw [unfoldValue_id hv1nl]
      rfl]
    rw [headerLoop_nil, flushHeader]
    rw [unfoldValue_id hv2nl]
    rw [← hcase]
    rw [show mapGet [(toLowerStr n1, trimJS v1)] (toLowerStr n1) =
        some (trimJS v1) from by rw [mapGet, if_pos rfl]]
    show mapSet [(toLowerStr n1, trimJS v1)] (toLowerStr n1)
        (trimJS v1 ++ '\n' :: trimJS v2) =
      [(toLowerStr n1, trimJS v1 ++ '\n' :: trimJS v2)]
    rw [mapSet, if_pos rfl]
  · intro n v hne hws hcol hnl hcr htr hvnl hvcr hvtr hcase
    have hrawnl : '\n' ∉ n ++ ':' :: v :=
      not_mem_append2 hnl (not_mem_cons2 (by decide) hvnl)
    have hrawcr : '\r' ∉ n ++ ':' :: v :=
      not_mem_append2 hcr (not_mem_cons2 (by decide) hvcr)
    have hsec : headerSectionOf (n ++ ':' :: v) = n ++ ':' :: v := by
      refine (parseEml_boundary _).2.1 ?_
      intro i
      constructor
      · intro hocc
        have e := occAt_getElem hocc (k := 0) (by decide)
        rw [Nat.add_zero] at e
        exact hrawcr (List.getElem?_mem e)
      · intro hocc
        have e := occAt_getElem hocc (k := 0) (by decide)
        rw [Nat.add_zero] at e
        exact hrawnl (List.getElem?_mem e)
    have hmap : parseHeaders (n ++ ':' :: v) = [(toLowerStr n, trimJS v)] := by
      rw [parseHeaders, stripCR_id hrawcr, splitNl_nosep hrawnl]
      rw [headerLoop_line _ _ _ _ _ hne hws hcol htr]
      rw [headerLoop_nil]
      rw [show flushHeader (flushHeader [] none []) (some n) v =
          [(toLowerStr n, trimJS v)] from by
        rw [show flushHeader [] none [] = [] from rfl, flushHeader]
        rw [unfoldValue_id hvnl]
        rfl]
    show getHeader (parseHeaders (headerSectionOf (n ++ ':' :: v)))
      "subject".toList = some (decodeEncodedWords v)
    rw [hsec, hmap, getHeader, ← hcase]
    rw [show mapGet [(toLowerStr n, trimJS v)] (toLowerStr n) =
      some (trimJS v) from by rw [mapGet, if_pos rfl]]
    rw [hvtr]
    show some (decodeEncodedWords (trimJS v)) = some (decodeEncodedWords v)
    rw [hvtr]

/-- Witness for C9: `"Subject"` and `"SUBJECT"` merge into one lowercased
entry with newline-joined values. -/
theorem parseHeaders_caseInsensitive_witness :
    parseHeaders ("Subject".toList ++ ':' :: " A".toList ++
        '\n' :: ("SUBJECT".toList ++ ':' :: " B".toList)) =
      [(toLowerStr "Subject".toList, trimJS " A".toList ++
        '\n' :: trimJS " B".toList)] :=
  parseHeaders_caseInsensitive.1 "Subject".toList " A".toList
    "SUBJECT".toList " B".toList (by decide) (by decide) (by decide)
    (by decide) (by decide) (by decide) (by decide) (by decide) (by decide)
    (by decide) (by decide) (by decide) (by decide) (by decide) (by decide)
    (by decide) (by decide)

/-! ### C5: encoded-word decoding -/

theorem takeWhile_break (l X : List Char) (h : '?' ∉ l) :
    (l ++ '?' :: X).takeWhile (fun c => c ≠ '?') = l := by
  induction l with
  | nil => simp [List.takeWhile_cons]
  | cons c l ih =>
    have hc : c ≠ '?' := fun hh => h (hh ▸ List.mem_cons_self c l)
    have hl : '?' ∉ l := fun hm => h (List.mem_cons_of_mem c hm)
    rw [List.cons_append, List.takeWhile_cons, if_pos (by simp [hc]), ih hl]

/-- The regex matcher succeeds exactly on a well-shaped encoded word,
capturing the three groups and leaving the remainder. -/
theorem matchEncodedWord_of (cs txt suf : List Char) (e : Char)
    (hcs : cs ≠ []) (hcsq : '?' ∉ cs)
    (he : e = 'B' ∨ e = 'b' ∨ e = 'Q' ∨ e = 'q') (htxt : '?' ∉ txt) :
    matchEncodedWord (encodedWord cs e txt ++ suf) = some (cs, e, txt, suf) := by
  have h1 : encodedWord cs e txt ++ suf =
      '=' :: '?' :: (cs ++ '?' :: e :: '?' :: (txt ++ '?' :: '=' :: suf)) := by
    simp [encodedWord]
  have hlit : matchLit "=?".toList
      ('=' :: '?' :: (cs ++ '?' :: e :: '?' :: (txt ++ '?' :: '=' :: suf))) =
      some (cs ++ '?' :: e :: '?' :: (txt ++ '?' :: '=' :: suf)) := by
    have hpre : "=?".toList.isPrefixOf
        ('=' :: '?' :: (cs ++ '?' :: e :: '?' :: (txt ++ '?' :: '=' :: suf))) =
        true :=
      List.isPrefixOf_iff_prefix.mpr
        ⟨cs ++ '?' :: e :: '?' :: (txt ++ '?' :: '=' :: suf), rfl⟩
    rw [matchLit, if_pos hpre]
    rfl
  have hcse : cs.isEmpty = false := by
    cases cs with
    | nil => exact absurd rfl hcs
    | cons a l => rfl
  have htw1 : (cs ++ '?' :: e :: '?' :: (txt ++ '?' :: '=' :: suf)).takeWhile
      (fun c => c ≠ '?') = cs := takeWhile_break cs _ hcsq
  have hdrop1 : (cs ++ '?' :: e :: '?' :: (txt ++ '?' :: '=' :: suf)).drop
      cs.length = '?' :: e :: '?' :: (txt ++ '?' :: '=' :: suf) :=
    List.drop_left cs _
  have htw2 : (txt ++ '?' :: '=' :: suf).takeWhile (fun c => c ≠ '?') = txt :=
    takeWhile_break txt _ htxt
  have hdrop2 : (txt ++ '?' :: '=' :: suf).drop txt.length = '?' :: '=' :: suf :=
    List.drop_left txt _
  rw [h1]
  unfold matchEncodedWord
  rw [hlit]
  simp only [htw1, hcse, hdrop1, htw2, hdrop2, Bool.false_eq_true, if_false,
    if_pos he]

/-- One-step unfolding of the decoding loop. -/
theorem decodeEWAux_cons (fuel : Nat) (c : Char) (rest : List Char) :
    decodeEWAux (fuel + 1) (c :: rest) =
      if c = '=' then
        match matchEncodedWord (c :: rest) with
        | some (cs, e, txt, rest2) =>
          decodeWordOrOriginal cs e txt ++ decodeEWAux fuel rest2
        | none => c :: decodeEWAux fuel rest
      else c :: decodeEWAux fuel rest := rfl

/-- Characters before the next encoded word are copied verbatim. -/
theorem decodeEWAux_copy (pre : List Char) (fuel : Nat) (s : List Char)
    (h : '=' ∉ pre) :
    decodeEWAux (fuel + pre.length) (pre ++ s) = pre ++ decodeEWAux fuel s := by
  induction pre with
  | nil => rfl
  | cons c p ih =>
    have hc : c ≠ '=' := fun hh => h (hh ▸ List.mem_cons_self c p)
    have hp : '=' ∉ p := fun hm => h (List.mem_cons_of_mem c hm)
    show decodeEWAux ((fuel + p.length) + 1) (c :: (p ++ s)) =
      c :: (p ++ decodeEWAux fuel s)
    rw [decodeEWAux_cons, if_neg hc, ih hp]

/-- A string with no `'='` is left untouched for any fuel. -/
theorem decodeEWAux_nomatch (fuel : Nat) (s : List Char) (h : '=' ∉ s) :
    decodeEWAux fuel s = s := by
  induction s generalizing fuel with
  | nil => cases fuel <;> rfl
  | cons c rest ih =>
    cases fuel with
    | zero => rfl
    | succ f =>
      have hc : c ≠ '=' := fun hh => h (hh ▸ List.mem_cons_self c rest)
      have hr : '=' ∉ rest := fun hm => h (List.mem_cons_of_mem c hm)
      rw [decodeEWAux_cons, if_neg hc, ih f hr]

theorem decodeEWAux_match (fuel : Nat) (tail cs txt rest2 : List Char)
    (e : Char) (h : matchEncodedWord ('=' :: tail) = some (cs, e, txt, rest2)) :
    decodeEWAux (fuel + 1) ('=' :: tail) =
      decodeWordOrOriginal cs e txt ++ decodeEWAux fuel rest2 := by
  rw [decodeEWAux_cons, if_pos rfl, h]

/-- A successful match strictly consumes input. -/
theorem matchEncodedWord_consumes {s cs txt rest2 : List Char} {e : Char}
    (h : matchEncodedWord s = some (cs, e, txt, rest2)) :
    rest2.length < s.length := by
  unfold matchEncodedWord at h
  split at h
  · exact Option.noConfusion h
  · rename_i r1 hlit
    have hr1 : r1.length + 2 ≤ s.length := by
      unfold matchLit at hlit
      split at hlit
      · rename_i hpre
        have hl2 : ("=?".toList).length ≤ s.length :=
          (List.isPrefixOf_iff_prefix.mp hpre).length_le
        have hln : ("=?".toList).length = 2 := rfl
        have hr : r1 = s.drop ("=?".toList).length := (Option.some.inj hlit).symm
        have : r1.length = s.length - 2 := by
          rw [hr, List.length_drop, hln]
        omega
      · exact Option.noConfusion hlit
    split at h
    · exact Option.noConfusion h
    · split at h
      · rename_i e' r3 hd1
        have hr3 : r3.length + 3 ≤ r1.length := by
          have := congrArg List.length hd1
          rw [List.length_drop] at this
          simp only [List.length_cons] at this
          omega
        split at h
        · split at h
          · rename_i rest2' hd2
            have hr2 : rest2'.length + 2 ≤ r3.length := by
              have := congrArg List.length hd2
              rw [List.length_drop] at this
              simp only [List.length_cons] at this
              omega
            have h4 : rest2' = rest2 :=
              congrArg (fun q => q.2.2.2) (Option.some.inj h)
            rw [← h4]
            omega
          · exact Option.noConfusion h
        · exact Option.noConfusion h
      · exact Option.noConfusion h


/-- Fuel irrelevance for the decoding loop. -/
theorem decodeEWAux_sufficient :
    ∀ {fuel₁ fuel₂ : Nat} {s : List Char}, s.length ≤ fuel₁ →
      s.length ≤ fuel₂ → decodeEWAux fuel₁ s = decodeEWAux fuel₂ s := by
  intro fuel₁
  induction fuel₁ with
  | zero =>
    intro fuel₂ s h₁ h₂
    have hs : s = [] := List.eq_nil_of_length_eq_zero (Nat.le_zero.mp h₁)
    subst hs
    cases fuel₂ <;> rfl
  | succ f ih =>
    intro fuel₂ s h₁ h₂
    cases fuel₂ with
    | zero =>
      have hs : s = [] := List.eq_nil_of_length_eq_zero (Nat.le_zero.mp h₂)
      subst hs
      rfl
    | succ g =>
      cases s with
      | nil => rfl
      | cons c rest =>
        rw [List.length_cons] at h₁ h₂
        rw [decodeEWAux_cons, decodeEWAux_cons]
        by_cases hc : c = '='
        · rw [if_pos hc, if_pos hc]
          cases hm : matchEncodedWord (c :: rest) with
          | none =>
            show c :: decodeEWAux f rest = c :: decodeEWAux g rest
            exact congrArg (fun l => c :: l) (ih (by omega) (by omega))
          | some q =>
            obtain ⟨cs, e, txt, rest2⟩ := q
            show decodeWordOrOriginal cs e txt ++ decodeEWAux f rest2 =
              decodeWordOrOriginal cs e txt ++ decodeEWAux g rest2
            have hlt : rest2.length < (c :: rest).length :=
              matchEncodedWord_consumes hm
            rw [List.length_cons] at hlt
            exact congrArg (fun l => decodeWordOrOriginal cs e txt ++ l)
              (ih (by omega) (by omega))
        · rw [if_neg hc, if_neg hc]
          exact congrArg (fun l => c :: l) (ih (by omega) (by omega))

/-- A value with no `'='` at all is returned unchanged. -/
theorem decodeEncodedWords_nomatch (s : List Char) (h : '=' ∉ s) :
    decodeEncodedWords s = s := by
  rw [decodeEncodedWords]
  exact decodeEWAux_nomatch _ _ h

/-- Compositional step: the text before an encoded word is copied, the word
is replaced by its decoding (or kept on failure), and the scan continues on
the remainder. -/
theorem decodeEW_append (pre cs txt rest : List Char) (e : Char)
    (hpre : '=' ∉ pre) (hcs : cs ≠ []) (hcsq : '?' ∉ cs)
    (he : e = 'B' ∨ e = 'b' ∨ e = 'Q' ∨ e = 'q') (htxt : '?' ∉ txt) :
    decodeEncodedWords (pre ++ encodedWord cs e txt ++ rest) =
      pre ++ (decodeWordOrOriginal cs e txt ++ decodeEncodedWords rest) := by
  have hm : matchEncodedWord
      ('=' :: ('?' :: (cs ++ '?' :: e :: '?' :: (txt ++ ['?', '='])) ++ rest)) =
      some (cs, e, txt, rest) :=
    matchEncodedWord_of cs txt rest e hcs hcsq he htxt
  rw [List.append_assoc, decodeEncodedWords]
  have hlen : (pre ++ (encodedWord cs e txt ++ rest)).length =
      (encodedWord cs e txt ++ rest).length + pre.length := by
    rw [List.length_append, Nat.add_comm]
  rw [hlen, decodeEWAux_copy pre _ _ hpre]
  show pre ++ decodeEWAux
      (('?' :: (cs ++ '?' :: e :: '?' :: (txt ++ ['?', '='])) ++ rest).length + 1)
      ('=' :: ('?' :: (cs ++ '?' :: e :: '?' :: (txt ++ ['?', '='])) ++ rest)) =
    pre ++ (decodeWordOrOriginal cs e txt ++ decodeEncodedWords rest)
  rw [decodeEWAux_match _ _ _ _ _ _ hm]
  have hle : rest.length ≤
      ('?' :: (cs ++ '?' :: e :: '?' :: (txt ++ ['?', '='])) ++ rest).length := by
    rw [List.length_append]
    omega
  rw [decodeEWAux_sufficient hle (Nat.le_refl _), ← decodeEncodedWords]

/-- **C5**: `decodeEncodedWords` replaces each `=?charset?enc?text?=`
substring by the decoding of `text` per the declared encoding and charset
(part 2: two encoded words in one value are both replaced), and the
replacement of a word whose decoding fails is the original matched
substring, left untouched in place (part 3); the function is total, so it
never throws. -/
theorem decodeEncodedWords_spec :
    (∀ pre cs txt suf : List Char, ∀ e : Char, '=' ∉ pre → cs ≠ [] →
      '?' ∉ cs → (e = 'B' ∨ e = 'b' ∨ e = 'Q' ∨ e = 'q') → '?' ∉ txt →
      '=' ∉ suf →
      decodeEncodedWords (pre ++ encodedWord cs e txt ++ suf) =
        pre ++ decodeWordOrOriginal cs e txt ++ suf) ∧
    (∀ p1 cs1 txt1 p2 cs2 txt2 p3 : List Char, ∀ e1 e2 : Char,
      '=' ∉ p1 → '=' ∉ p2 → '=' ∉ p3 →
      cs1 ≠ [] → '?' ∉ cs1 → (e1 = 'B' ∨ e1 = 'b' ∨ e1 = 'Q' ∨ e1 = 'q') →
      '?' ∉ txt1 →
      cs2 ≠ [] → '?' ∉ cs2 → (e2 = 'B' ∨ e2 = 'b' ∨ e2 = 'Q' ∨ e2 = 'q') →
      '?' ∉ txt2 →
      decodeEncodedWords (p1 ++ encodedWord cs1 e1 txt1 ++ p2 ++
          encodedWord cs2 e2 txt2 ++ p3) =
        p1 ++ decodeWordOrOriginal cs1 e1 txt1 ++ p2 ++
          decodeWordOrOriginal cs2 e2 txt2 ++ p3) ∧
    (∀ cs txt : List Char, ∀ e : Char, tryDecodeWord cs e txt = none →
      decodeWordOrOriginal cs e txt = encodedWord cs e txt) := by
  refine ⟨?_, ?_, ?_⟩
  · intro pre cs txt suf e hpre hcs hcsq he htxt hsuf
    rw [decodeEW_append pre cs txt suf e hpre hcs hcsq he htxt]
    rw [decodeEncodedWords_nomatch suf hsuf, List.append_assoc]
  · intro p1 cs1 txt1 p2 cs2 txt2 p3 e1 e2 h1 h2 h3 hcs1 hq1 he1 ht1 hcs2
      hq2 he2 ht2
    rw [show p1 ++ encodedWord cs1 e1 txt1 ++ p2 ++ encodedWord cs2 e2 txt2 ++
        p3 = p1 ++ encodedWord cs1 e1 txt1 ++
          (p2 ++ encodedWord cs2 e2 txt2 ++ p3) from by
      simp [List.append_assoc]]
    rw [decodeEW_append p1 cs1 txt1 _ e1 h1 hcs1 hq1 he1 ht1]
    rw [decodeEW_append p2 cs2 txt2 p3 e2 h2 hcs2 hq2 he2 ht2]
    rw [decodeEncodedWords_nomatch p3 h3]
    simp [List.append_assoc]
  · intro cs txt e h
    unfold decodeWordOrOriginal
    rw [h]

/-- Witness for C5: a UTF-8 B-encoded word decodes to `"héllo"` in place,
and a word with an unknown charset is left untouched. -/
theorem decodeEncodedWords_spec_witness :
    decodeEncodedWords ("Subject: ".toList ++
        encodedWord "UTF-8".toList 'B' "aMOpbGxv".toList ++ []) =
      "Subject: héllo".toList ∧
    decodeEncodedWords ([] ++
        encodedWord "x-unknown".toList 'Q' "a_b=41".toList ++ []) =
      "=?x-unknown?Q?a_b=41?=".toList := by
  constructor
  · exact (decodeEncodedWords_spec.1 "Subject: ".toList "UTF-8".toList
      "aMOpbGxv".toList [] 'B' (by decide) (by decide) (by decide)
      (Or.inl rfl) (by decide) (by decide)).trans (by decide)
  · exact (decodeEncodedWords_spec.1 [] "x-unknown".toList "a_b=41".toList
      [] 'Q' (by decide) (by decide) (by decide)
      (Or.inr (Or.inr (Or.inl rfl))) (by decide) (by decide)).trans (by decide)

/-! ### C2, C6: column-layout preference store -/

/-- The preference plist file, abstracted as an insertion-ordered key-value
map (Python `plistlib` preserves dict order; values are carried as their
printed representations, since no claim inspects their inner structure). -/
abbrev Store := List (List Char × List Char)

/-- The `plistRead` collaborator contract (reader.ts lines 16-26): PlistBuddy
`Print ':key'` prints the value stored under `key` and the source trims the
stdout; a missing key makes PlistBuddy fail, which the `catch` turns into
`null`. -/
def plistRead (store : Store) (key : List Char) : Option (List Char) :=
  (mapGet store key).map trimJS

/-- `parsePlistBuddyArray` (reader.ts lines 31-36). -/
def parsePlistBuddyArray (raw : List Char) : List (List Char) :=
  ((splitNl raw).map trimJS).filter
    (fun l => ¬(l = [] ∨ l = "Array \x7b".toList ∨ l = "\x7d".toList))

/-- `LAYOUT_PREFIXES` (column-layout.ts lines 26-30). -/
def LAYOUT_PREFIXES : List (List Char) :=
  ["ListColumnsHorizontal-".toList,
   "TableView Columns ListColumnsHorizontal-".toList,
   "TableView Column Widths ListColumnsHorizontal-".toList]

/-- `LAYOUT_SUFFIXES` (column-layout.ts lines 32-36). -/
def LAYOUT_SUFFIXES : List (List Char) :=
  ["ListColumnsHorizontal".toList,
   "TableView Columns ListColumnsHorizontal".toList,
   "TableView Column Widths ListColumnsHorizontal".toList]

/-- `keysForName` (column-layout.ts lines 38-44), one definition per key. -/
def columnsKey (name : List Char) : List Char :=
  "ListColumnsHorizontal-".toList ++ name

def tableViewColumnsKey (name : List Char) : List Char :=
  "TableView Columns ListColumnsHorizontal-".toList ++ name

def tableViewWidthsKey (name : List Char) : List Char :=
  "TableView Column Widths ListColumnsHorizontal-".toList ++ name

/-- `ColumnLayoutResult` (column-layout.ts lines 46-54).  `widths` keeps the
raw PlistBuddy `Dict` printout; the source additionally parses it into a
name-to-number record via `parsePlistBuddyDict`, which no claim observes. -/
structure ColumnLayoutResult where
  found : Bool
  name : List Char
  resolvedKey : List Char
  columns : Option (List (List Char))
  tableViewColumns : Option (List (List Char))
  widths : Option (List Char)
  keysFound : List (List Char)
deriving DecidableEq

/-- `readLayoutForName` (column-layout.ts lines 56-81): `null` when all three
raw reads are JavaScript-falsy (missing key or empty printout). -/
def readLayoutForName (store : Store) (baseName : List Char) :
    Option ColumnLayoutResult :=
  let rawColumns := plistRead store (columnsKey baseName)
  let rawTableViewColumns := plistRead store (tableViewColumnsKey baseName)
  let rawWidths := plistRead store (tableViewWidthsKey baseName)
  if isFalsyStr rawColumns && isFalsyStr rawTableViewColumns &&
      isFalsyStr rawWidths then none
  else some
    { found := true
      name := baseName
      resolvedKey := baseName
      columns := if isFalsyStr rawColumns then none
        else some (parsePlistBuddyArray (rawColumns.getD []))
      tableViewColumns := if isFalsyStr rawTableViewColumns then none
        else some (parsePlistBuddyArray (rawTableViewColumns.getD []))
      widths := if isFalsyStr rawWidths then none else rawWidths
      keysFound :=
        (if isFalsyStr rawColumns then [] else [columnsKey baseName]) ++
        (if isFalsyStr rawTableViewColumns then []
         else [tableViewColumnsKey baseName]) ++
        (if isFalsyStr rawWidths then [] else [tableViewWidthsKey baseName]) }

/-- Insertion step for the Python `sorted` model (code-point order). -/
def insertName (a : List Char) : List (List Char) → List (List Char)
  | [] => [a]
  | b :: rest => if a ≤ b then a :: b :: rest else b :: insertName a rest

/-- Python `sorted` over the collected names; on distinct elements (the
names come from a set) every correct ascending sort agrees, so a structural
insertion sort embeds it. -/
def sortNames : List (List Char) → List (List Char)
  | [] => []
  | a :: rest => insertName a (sortNames rest)

/-- `getPlistKeysByPrefix` (reader.ts lines 60-90): the Python script
collects `k[len(p):]` for every key matching a prefix into a set, drops
names starting with `Outline`, sorts (code-point order), and prints the
first `limit` names. -/
def getPlistKeysByPrefix (store : Store) (prefixes : List (List Char))
    (limit : Nat) : List (List Char) :=
  let collected := (store.map Prod.fst).flatMap
    (fun k => prefixes.filterMap
      (fun p => if p.isPrefixOf k then some (k.drop p.length) else none))
  let names := collected.dedup.filter
    (fun n => ! ("Outline".toList.isPrefixOf n))
  (sortNames names).take limit

/-- `getExistingNames` (column-layout.ts lines 83-85). -/
def getExistingNames (store : Store) (limit : Nat) : List (List Char) :=
  getPlistKeysByPrefix store LAYOUT_PREFIXES limit

/-- `findMatchingNames` (column-layout.ts lines 87-91): case-insensitive
substring match (`includes` is `indexOf`-reachability). -/
def findMatchingNames (store : Store) (searchTerm : List Char) :
    List (List Char) :=
  (getExistingNames store 200).filter
    (fun n => (findFrom (toLowerStr searchTerm) (toLowerStr n) 0).isSome)

/-- The result object of `get_column_layout` (column-layout.ts lines
97-151); `none` marks a field absent from the returned JavaScript object. -/
structure GetLayoutResult where
  success : Bool
  layout : Option ColumnLayoutResult
  name : Option (List Char)
  nameSearched : Option (List Char)
  note : Option (List Char)
  error : Option (List Char)
  partialMatches : Option (List (List Char))
  exampleNames : Option (List (List Char))
deriving DecidableEq

/-- `getColumnLayout` (column-layout.ts lines 97-151). -/
def getColumnLayout (store : Store) (name uuid : Option (List Char)) :
    GetLayoutResult :=
  if isFalsyStr name then
    { success := false, layout := none, name := none, nameSearched := none,
      note := none, error := some "name parameter is required".toList,
      partialMatches := none, exampleNames := none }
  else
    let n := name.getD []
    match readLayoutForName store n with
    | some r =>
      { success := true, layout := some r, name := none, nameSearched := none,
        note := none, error := none, partialMatches := none,
        exampleNames := none }
    | none =>
      match (match uuid with
             | some u => if u.isEmpty then none else readLayoutForName store u
             | none => none) with
      | some r =>
        { success := true, layout := some { r with name := n }, name := none,
          nameSearched := none, note := none, error := none,
          partialMatches := none, exampleNames := none }
      | none =>
        let fuzzy := findMatchingNames store n
        match (if fuzzy.length = 1 then readLayoutForName store (fuzzy.headD [])
               else none) with
        | some r =>
          { success := true, layout := some r, name := none,
            nameSearched := some n,
            note := some ("Exact name not found; matched \"".toList ++
              fuzzy.headD [] ++ "\" via partial search".toList),
            error := none, partialMatches := none, exampleNames := none }
        | none =>
          let examples := getExistingNames store 15
          if 1 < fuzzy.length then
            { success := false, layout := none, name := some n,
              nameSearched := none, note := none,
              error := some ("No exact match for \"".toList ++ n ++
                "\". Multiple partial matches found — be more specific.".toList),
              partialMatches := some fuzzy, exampleNames := none }
          else
            { success := false, layout := none, name := some n,
              nameSearched := none, note := none,
              error := some ("No column layout found for \"".toList ++ n ++
                "\". This smart group may not have a custom layout yet (it will use defaults). Use copy_column_layout to copy an existing layout to it.".toList),
              partialMatches := none, exampleNames := some examples }

/-- The result of `copyPlistKeys` (reader.ts lines 95-144).  The `error`
text abstracts the Node `execSync` failure message, which wraps the script
stderr; no claim inspects it. -/
structure CopyKeysResult where
  ok : Bool
  keysCopied : List (List Char)
  error : Option (List Char)
deriving DecidableEq

/-- One iteration of the Python copy loop (reader.ts lines 114-119): the
lookup is in the partially-updated dict, and `dict` assignment updates an
existing key in place or appends. -/
def copyKeyStep (source target : List Char)
    (acc : Store × List (List Char)) (suffix : List Char) :
    Store × List (List Char) :=
  match mapGet acc.1 (suffix ++ '-' :: source) with
  | some v => (mapSet acc.1 (suffix ++ '-' :: target) v, acc.2 ++ [suffix ++ '-' :: target])
  | none => acc

/-- `copyPlistKeys` (reader.ts lines 95-144): when no source key exists the
script exits before writing, so the store is returned unchanged; otherwise
the updated dict is written back. -/
def copyPlistKeys (store : Store) (suffixes : List (List Char))
    (source target : List Char) : CopyKeysResult × Store :=
  let step := suffixes.foldl (copyKeyStep source target) (store, [])
  if step.2.isEmpty then
    ({ ok := false, keysCopied := [],
       error := some ("ERROR: no source keys found for: ".toList ++ source) },
     store)
  else
    ({ ok := true, keysCopied := step.2, error := none }, step.1)

/-- The result object of `copy_column_layout` (column-layout.ts lines
183-192). -/
structure CopyLayoutResult where
  success : Bool
  sourceName : Option (List Char)
  targetName : Option (List Char)
  resolvedSourceKey : Option (List Char)
  resolvedTargetKey : Option (List Char)
  keysCopied : Option (List (List Char))
  message : Option (List Char)
  error : Option (List Char)
deriving DecidableEq

/-- `copyColumnLayout` (column-layout.ts lines 194-281), paired with the
store it leaves behind. -/
def copyColumnLayout (store : Store)
    (sourceName targetName sourceUuid targetUuid : Option (List Char)) :
    CopyLayoutResult × Store :=
  if isFalsyStr sourceName then
    ({ success := false, sourceName := none, targetName := none,
       resolvedSourceKey := none, resolvedTargetKey := none,
       keysCopied := none, message := none,
       error := some "sourceName parameter is required".toList }, store)
  else if isFalsyStr targetName then
    ({ success := false, sourceName := none, targetName := none,
       resolvedSourceKey := none, resolvedTargetKey := none,
       keysCopied := none, message := none,
       error := some "targetName parameter is required".toList }, store)
  else
    let s := sourceName.getD []
    let t := targetName.getD []
    let fuzzy := findMatchingNames store s
    let resolved : Option (List Char) :=
      if (readLayoutForName store s).isSome then some s
      else if (match sourceUuid with
               | some u => !u.isEmpty && (readLayoutForName store u).isSome
               | none => false) then sourceUuid
      else if fuzzy.length = 1 &&
          (readLayoutForName store (fuzzy.headD [])).isSome then
        some (fuzzy.headD [])
      else none
    match resolved with
    | none =>
      if 1 < fuzzy.length then
        ({ success := false, sourceName := some s, targetName := some t,
           resolvedSourceKey := none, resolvedTargetKey := none,
           keysCopied := none, message := none,
           error := some ("Ambiguous source name \"".toList ++ s ++
             "\". Multiple matches: ".toList ++
             List.intercalate ", ".toList (fuzzy.take 8)) }, store)
      else
        ({ success := false, sourceName := some s, targetName := some t,
           resolvedSourceKey := none, resolvedTargetKey := none,
           keysCopied := none, message := none,
           error := some ("Source column layout for \"".toList ++ s ++
             "\" not found. This smart group may not have a custom layout saved yet. Known layouts include: ".toList ++
             List.intercalate ", ".toList ((getExistingNames store 10).take 8)) },
         store)
    | some k =>
      let rtk := targetUuid.getD t
      let cr := copyPlistKeys store LAYOUT_SUFFIXES k rtk
      if cr.1.ok then
        match readLayoutForName cr.2 rtk with
        | none =>
          ({ success := false, sourceName := some s, targetName := some t,
             resolvedSourceKey := some k, resolvedTargetKey := some rtk,
             keysCopied := none, message := none,
             error := some "Copy appeared to succeed but target keys not readable after write".toList },
           cr.2)
        | some verification =>
          ({ success := true, sourceName := some s, targetName := some t,
             resolvedSourceKey := some k, resolvedTargetKey := some rtk,
             keysCopied := some cr.1.keysCopied,
             message := some ("Copied column layout from \"".toList ++ s ++
               "\" to \"".toList ++ t ++ "\". Keys written: ".toList ++
               List.intercalate ", ".toList cr.1.keysCopied ++
               ". Columns: [".toList ++
               (match verification.columns with
                | some cols => List.intercalate ", ".toList cols
                | none => "n/a".toList) ++
               "]. Restart DEVONthink or close/reopen the smart group window for the change to take effect.".toList),
             error := none }, cr.2)
      else
        ({ success := false, sourceName := some s, targetName := some t,
           resolvedSourceKey := some k, resolvedTargetKey := some rtk,
           keysCopied := none, message := none,
           error := some ("Copy failed: ".toList ++ (cr.1.error.getD [])) },
         cr.2)

theorem copyKeys_fold_none (source target : List Char) :
    ∀ (suffixes : List (List Char)) (store : Store),
      (∀ suffix ∈ suffixes, mapGet store (suffix ++ '-' :: source) = none) →
      suffixes.foldl (copyKeyStep source target) (store, []) = (store, []) := by
  intro suffixes
  induction suffixes with
  | nil => intro store h; rfl
  | cons suffix rest ih =>
    intro store h
    have h0 : mapGet store (suffix ++ '-' :: source) = none :=
      h suffix (List.mem_cons_self _ _)
    have hstep : copyKeyStep source target (store, []) suffix = (store, []) := by
      simp only [copyKeyStep]
      rw [h0]
    rw [List.foldl_cons, hstep]
    exact ih store (fun sfx hm => h sfx (List.mem_cons_of_mem _ hm))

/-- When the exact, uuid and unique-fuzzy resolutions all fail,
`copyColumnLayout` reaches one of its two non-resolution failure returns and
leaves the store untouched. -/
theorem copyColumnLayout_unresolved (store : Store) (s t : List Char)
    (su tu : Option (List Char)) (hs : s ≠ []) (ht : t ≠ [])
    (hread : readLayoutForName store s = none)
    (huuid : ∀ u, su = some u → u.isEmpty = true ∨
      readLayoutForName store u = none)
    (hfuzzy : ¬((findMatchingNames store s).length = 1 ∧
      (readLayoutForName store
        ((findMatchingNames store s).headD [])).isSome = true)) :
    copyColumnLayout store (some s) (some t) su tu =
      if 1 < (findMatchingNames store s).length then
        ({ success := false, sourceName := some s, targetName := some t,
           resolvedSourceKey := none, resolvedTargetKey := none,
           keysCopied := none, message := none,
           error := some ("Ambiguous source name \"".toList ++ s ++
             "\". Multiple matches: ".toList ++
             List.intercalate ", ".toList
               ((findMatchingNames store s).take 8)) }, store)
      else
        ({ success := false, sourceName := some s, targetName := some t,
           resolvedSourceKey := none, resolvedTargetKey := none,
           keysCopied := none, message := none,
           error := some ("Source column layout for \"".toList ++ s ++
             "\" not found. This smart group may not have a custom layout saved yet. Known layouts include: ".toList ++
             List.intercalate ", ".toList
               ((getExistingNames store 10).take 8)) }, store) := by
  have hse : s.isEmpty = false := by
    cases s with
    | nil => exact absurd rfl hs
    | cons a l => rfl
  have hte : t.isEmpty = false := by
    cases t with
    | nil => exact absurd rfl ht
    | cons a l => rfl
  have hcond : (decide ((findMatchingNames store s).length = 1) &&
      (readLayoutForName store
        ((findMatchingNames store s).headD [])).isSome) = false := by
    by_cases hlen : (findMatchingNames store s).length = 1
    · cases hx : (readLayoutForName store
          ((findMatchingNames store s).headD [])).isSome with
      | false => simp
      | true => exact absurd ⟨hlen, hx⟩ hfuzzy
    · simp [hlen]
  rcases su with _ | u
  · simp only [copyColumnLayout, isFalsyStr, hse, hte, Bool.false_eq_true,
      if_false, Option.getD_some, hread, Option.isSome_none, hcond]
  · rcases huuid u rfl with h | h
    · simp only [copyColumnLayout, isFalsyStr, hse, hte, Bool.false_eq_true,
        if_false, Option.getD_some, hread, Option.isSome_none, h,
        Bool.not_true, Bool.false_and, hcond]
    · simp only [copyColumnLayout, isFalsyStr, hse, hte, Bool.false_eq_true,
        if_false, Option.getD_some, hread, Option.isSome_none, h,
        Bool.and_false, hcond]

/-- The same non-resolution reduction for `getColumnLayout`. -/
theorem getColumnLayout_unresolved (store : Store) (n : List Char)
    (uuid : Option (List Char)) (hn : n ≠ [])
    (hread : readLayoutForName store n = none)
    (huuid : ∀ u, uuid = some u → u.isEmpty = true ∨
      readLayoutForName store u = none)
    (hfuzzy : ¬((findMatchingNames store n).length = 1 ∧
      (readLayoutForName store
        ((findMatchingNames store n).headD [])).isSome = true)) :
    getColumnLayout store (some n) uuid =
      if 1 < (findMatchingNames store n).length then
        { success := false, layout := none, name := some n,
          nameSearched := none, note := none,
          error := some ("No exact match for \"".toList ++ n ++
            "\". Multiple partial matches found — be more specific.".toList),
          partialMatches := some (findMatchingNames store n),
          exampleNames := none }
      else
        { success := false, layout := none, name := some n,
          nameSearched := none, note := none,
          error := some ("No column layout found for \"".toList ++ n ++
            "\". This smart group may not have a custom layout yet (it will use defaults). Use copy_column_layout to copy an existing layout to it.".toList),
          partialMatches := none,
          exampleNames := some (getExistingNames store 15) } := by
  have hne : n.isEmpty = false := by
    cases n with
    | nil => exact absurd rfl hn
    | cons a l => rfl
  have hsingle : (if (findMatchingNames store n).length = 1 then
      readLayoutForName store ((findMatchingNames store n).headD [])
      else none) = none := by
    by_cases hlen : (findMatchingNames store n).length = 1
    · rw [if_pos hlen]
      cases hx : readLayoutForName store ((findMatchingNames store n).headD []) with
      | none => rfl
      | some r => exact absurd ⟨hlen, by rw [hx]; rfl⟩ hfuzzy
    · rw [if_neg hlen]
  rcases uuid with _ | u
  · simp only [getColumnLayout, isFalsyStr, hne, Bool.false_eq_true, if_false,
      Option.getD_some, hread, hsingle]
  · rcases huuid u rfl with h | h
    · simp only [getColumnLayout, isFalsyStr, hne, Bool.false_eq_true,
        if_false, if_true, Option.getD_some, hread, h, hsingle]
    · simp only [getColumnLayout, isFalsyStr, hne, Bool.false_eq_true,
        if_false, Option.getD_some, hread, h, ite_self, hsingle]

set_option maxRecDepth 16384 in
/-- **C2** counterexample: the source base-name `"Jobs"` has none of its
three layout keys in the store, yet `copy_column_layout` succeeds through
the unique-fuzzy-match rescue (matching `"Jobs - Archive"`) and writes a
new key into the store — contradicting "fails and writes nothing". -/
theorem copy_keyless_counterexample :
    (mapGet [("ListColumnsHorizontal-Jobs - Archive".toList, "v".toList)]
        (columnsKey "Jobs".toList) = none ∧
     mapGet [("ListColumnsHorizontal-Jobs - Archive".toList, "v".toList)]
        (tableViewColumnsKey "Jobs".toList) = none ∧
     mapGet [("ListColumnsHorizontal-Jobs - Archive".toList, "v".toList)]
        (tableViewWidthsKey "Jobs".toList) = none) ∧
    (copyColumnLayout
        [("ListColumnsHorizontal-Jobs - Archive".toList, "v".toList)]
        (some "Jobs".toList) (some "T".toList) none none).1.success = true ∧
    mapGet (copyColumnLayout
        [("ListColumnsHorizontal-Jobs - Archive".toList, "v".toList)]
        (some "Jobs".toList) (some "T".toList) none none).2
      (columnsKey "T".toList) = some "v".toList := by
  decide

/-- **C2** (amended): `copyPlistKeys` itself is all-or-nothing — with no
source key present it fails and returns the store unchanged; and
`copy_column_layout` fails without writing whenever the exact, uuid and
unique-fuzzy source resolutions all fail.  (The original claim is refuted
by `copy_keyless_counterexample`: a keyless source name can still be
rescued by a unique fuzzy match, after which the copy succeeds and the
store is written.) -/
theorem copy_keyless_characterization :
    (∀ (store : Store) (suffixes : List (List Char)) (source target : List Char),
      (∀ suffix ∈ suffixes, mapGet store (suffix ++ '-' :: source) = none) →
      copyPlistKeys store suffixes source target =
        ({ ok := false, keysCopied := [],
           error := some ("ERROR: no source keys found for: ".toList ++
             source) }, store)) ∧
    (∀ (store : Store) (s t : List Char) (su tu : Option (List Char)),
      s ≠ [] → t ≠ [] → readLayoutForName store s = none →
      (∀ u, su = some u → u.isEmpty = true ∨
        readLayoutForName store u = none) →
      ¬((findMatchingNames store s).length = 1 ∧
        (readLayoutForName store
          ((findMatchingNames store s).headD [])).isSome = true) →
      (copyColumnLayout store (some s) (some t) su tu).1.success = false ∧
      (copyColumnLayout store (some s) (some t) su tu).2 = store) := by
  constructor
  · intro store suffixes source target h
    have hfold := copyKeys_fold_none source target suffixes store h
    simp [copyPlistKeys, hfold]
  · intro store s t su tu hs ht hread huuid hfuzzy
    rw [copyColumnLayout_unresolved store s t su tu hs ht hread huuid hfuzzy]
    by_cases hlen : 1 < (findMatchingNames store s).length
    · rw [if_pos hlen]
      exact ⟨rfl, rfl⟩
    · rw [if_neg hlen]
      exact ⟨rfl, rfl⟩

/-- Witness for C2: a store holding only an unrelated key makes
`copyPlistKeys` fail unchanged, and a source with no keys and no fuzzy
candidates makes `copy_column_layout` fail unchanged. -/
theorem copy_keyless_characterization_witness :
    copyPlistKeys [("k".toList, "v".toList)] LAYOUT_SUFFIXES
        "X".toList "Y".toList =
      ({ ok := false, keysCopied := [],
         error := some ("ERROR: no source keys found for: ".toList ++
           "X".toList) }, [("k".toList, "v".toList)]) ∧
    (copyColumnLayout [] (some "X".toList) (some "Y".toList)
        none none).1.success = false ∧
    (copyColumnLayout [] (some "X".toList) (some "Y".toList)
        none none).2 = [] := by
  refine ⟨copy_keyless_characterization.1 [("k".toList, "v".toList)]
    LAYOUT_SUFFIXES "X".toList "Y".toList (by decide), ?_, ?_⟩
  · exact (copy_keyless_characterization.2 [] "X".toList "Y".toList none none
      (by decide) (by decide) (by decide)
      (fun u h => Option.noConfusion h) (by decide)).1
  · exact (copy_keyless_characterization.2 [] "X".toList "Y".toList none none
      (by decide) (by decide) (by decide)
      (fun u h => Option.noConfusion h) (by decide)).2

/-- **C6**: when the exact lookup and uuid fallback fail and the
case-insensitive substring search yields more than one candidate, both
`get_column_layout` and `copy_column_layout` source resolution return
`success := false` listing the ambiguous candidates, and the store is not
touched — no candidate is silently chosen. -/
theorem ambiguous_resolution_spec :
    (∀ (store : Store) (n : List Char) (uuid : Option (List Char)),
      n ≠ [] → readLayoutForName store n = none →
      (∀ u, uuid = some u → u.isEmpty = true ∨
        readLayoutForName store u = none) →
      1 < (findMatchingNames store n).length →
      getColumnLayout store (some n) uuid =
        { success := false, layout := none, name := some n,
          nameSearched := none, note := none,
          error := some ("No exact match for \"".toList ++ n ++
            "\". Multiple partial matches found — be more specific.".toList),
          partialMatches := some (findMatchingNames store n),
          exampleNames := none }) ∧
    (∀ (store : Store) (s t : List Char) (su tu : Option (List Char)),
      s ≠ [] → t ≠ [] → readLayoutForName store s = none →
      (∀ u, su = some u → u.isEmpty = true ∨
        readLayoutForName store u = none) →
      1 < (findMatchingNames store s).length →
      copyColumnLayout store (some s) (some t) su tu =
        ({ success := false, sourceName := some s, targetName := some t,
           resolvedSourceKey := none, resolvedTargetKey := none,
           keysCopied := none, message := none,
           error := some ("Ambiguous source name \"".toList ++ s ++
             "\". Multiple matches: ".toList ++
             List.intercalate ", ".toList
               ((findMatchingNames store s).take 8)) }, store)) := by
  constructor
  · intro store n uuid hn hread huuid hlen
    have hfuzzy : ¬((findMatchingNames store n).length = 1 ∧
        (readLayoutForName store
          ((findMatchingNames store n).headD [])).isSome = true) :=
      fun hh => Nat.lt_irrefl 1 (hh.1 ▸ hlen)
    rw [getColumnLayout_unresolved store n uuid hn hread huuid hfuzzy,
      if_pos hlen]
  · intro store s t su tu hs ht hread huuid hlen
    have hfuzzy : ¬((findMatchingNames store s).length = 1 ∧
        (readLayoutForName store
          ((findMatchingNames store s).headD [])).isSome = true) :=
      fun hh => Nat.lt_irrefl 1 (hh.1 ▸ hlen)
    rw [copyColumnLayout_unresolved store s t su tu hs ht hread huuid hfuzzy,
      if_pos hlen]

set_option maxRecDepth 16384 in
/-- Witness for C6: known layouts `"Jobs - Archive"` and `"Jobs - Review"`
with query `"Jobs"` — both tools fail listing both candidates, and the copy
leaves the store unchanged. -/
theorem ambiguous_resolution_spec_witness :
    (getColumnLayout
        [("ListColumnsHorizontal-Jobs - Archive".toList, "v".toList),
         ("ListColumnsHorizontal-Jobs - Review".toList, "w".toList)]
        (some "Jobs".toList) none).success = false ∧
    (getColumnLayout
        [("ListColumnsHorizontal-Jobs - Archive".toList, "v".toList),
         ("ListColumnsHorizontal-Jobs - Review".toList, "w".toList)]
        (some "Jobs".toList) none).partialMatches =
      some ["Jobs - Archive".toList, "Jobs - Review".toList] ∧
    (copyColumnLayout
        [("ListColumnsHorizontal-Jobs - Archive".toList, "v".toList),
         ("ListColumnsHorizontal-Jobs - Review".toList, "w".toList)]
        (some "Jobs".toList) (some "T".toList) none none).1.success = false ∧
    (copyColumnLayout
        [("ListColumnsHorizontal-Jobs - Archive".toList, "v".toList),
         ("ListColumnsHorizontal-Jobs - Review".toList, "w".toList)]
        (some "Jobs".toList) (some "T".toList) none none).1.error =
      some "Ambiguous source name \"Jobs\". Multiple matches: Jobs - Archive, Jobs - Review".toList ∧
    (copyColumnLayout
        [("ListColumnsHorizontal-Jobs - Archive".toList, "v".toList),
         ("ListColumnsHorizontal-Jobs - Review".toList, "w".toList)]
        (some "Jobs".toList) (some "T".toList) none none).2 =
      [("ListColumnsHorizontal-Jobs - Archive".toList, "v".toList),
       ("ListColumnsHorizontal-Jobs - Review".toList, "w".toList)] := by
  have h1 := ambiguous_resolution_spec.1
    [("ListColumnsHorizontal-Jobs - Archive".toList, "v".toList),
     ("ListColumnsHorizontal-Jobs - Review".toList, "w".toList)]
    "Jobs".toList none (by decide) (by decide)
    (fun u h => Option.noConfusion h) (by decide)
  have h2 := ambiguous_resolution_spec.2
    [("ListColumnsHorizontal-Jobs - Archive".toList, "v".toList),
     ("ListColumnsHorizontal-Jobs - Review".toList, "w".toList)]
    "Jobs".toList "T".toList none none (by decide) (by decide) (by decide)
    (fun u h => Option.noConfusion h) (by decide)
  refine ⟨by rw [h1], ?_, by rw [h2], ?_, by rw [h2]⟩
  · rw [h1]
    decide
  · rw [h2]
    decide

end Devon
